import Mathlib

/-!
Shallow embedding of the search-and-aggregation engine of `script.js`
(client-side CSV loader + fuzzy search).

Modelling conventions:
* JS strings are Lean `String`s; character-level work happens on `List Char`.
* JS numbers reached by this engine are exact rationals; they are embedded as
  the computable unnormalized fraction type `Frac` (with `Frac.toRat : Frac → ℚ`
  used in specification-level statements).  Floating-point rounding of JS is
  outside the model.
* `String.prototype.trim` / the regex class `\s` are modelled by the ASCII
  whitespace set (tab, LF, VT, FF, CR, space); `toLowerCase` by ASCII lowering.
* JS `Map` / `Set` are modelled as insertion-ordered lists with membership
  checks; `undefined` string fields are modelled as `""`.
-/

/-- ASCII whitespace, modelling the JS `\s` class / `trim` set
(tab, LF, VT, FF, CR, space). -/
def isWsC (c : Char) : Bool :=
  c.toNat = 32 || (9 ≤ c.toNat && c.toNat ≤ 13)

/-- Decimal digit test, modelling the regex class `\d`. -/
def isDigitC (c : Char) : Bool :=
  48 ≤ c.toNat && c.toNat ≤ 57

/-- ASCII lowering of one character, modelling `toLowerCase` per character. -/
def lowerC (c : Char) : Char :=
  if 65 ≤ c.toNat ∧ c.toNat ≤ 90 then Char.ofNat (c.toNat + 32) else c

/-- ASCII raising of one character, modelling `toUpperCase` per character. -/
def upperC (c : Char) : Char :=
  if 97 ≤ c.toNat ∧ c.toNat ≤ 122 then Char.ofNat (c.toNat - 32) else c

/-- The regex word-character class `\w` = `[A-Za-z0-9_]`. -/
def isWordC (c : Char) : Bool :=
  (65 ≤ c.toNat && c.toNat ≤ 90) || (97 ≤ c.toNat && c.toNat ≤ 122) ||
  (48 ≤ c.toNat && c.toNat ≤ 57) || c = '_'

/-- `[a-z0-9]`, the characters `slugify` keeps. -/
def isSlugC (c : Char) : Bool :=
  (97 ≤ c.toNat && c.toNat ≤ 122) || (48 ≤ c.toNat && c.toNat ≤ 57)

/-- JS `String.prototype.trim` on a character list. -/
def jsTrimL (l : List Char) : List Char :=
  ((l.dropWhile isWsC).reverse.dropWhile isWsC).reverse

/-- JS `toLowerCase` on a character list (ASCII model). -/
def jsLowerL (l : List Char) : List Char := l.map lowerC

/-- `s.trim().toLowerCase()` (used for `_normName`, query normalization,
`normalizeFilterValue`, `normalizeQuantity`). -/
def trimLower (s : String) : String := String.mk (jsLowerL (jsTrimL s.toList))

/-- `s.toLowerCase().trim()` (used inside `similarity`). -/
def lowerTrim (s : String) : String := String.mk (jsTrimL (jsLowerL s.toList))

/-- `String.prototype.trim` on strings. -/
def jsTrimS (s : String) : String := String.mk (jsTrimL s.toList)

/-- Numeric value of a list of decimal digits (most significant first). -/
def digitsVal (l : List Char) : Nat :=
  l.foldl (fun a c => a * 10 + (c.toNat - 48)) 0

/-- Exact unnormalized fraction: the embedding of the JS numbers computed by
this engine.  All fractions the engine builds have positive denominators. -/
structure Frac where
  num : Int
  den : Nat
deriving DecidableEq, Repr

/-- Embed a fraction into `ℚ` (specification side). -/
def Frac.toRat (f : Frac) : ℚ := (f.num : ℚ) / (f.den : ℚ)

/-- Fraction from an integer. -/
def Frac.ofInt (n : Int) : Frac := ⟨n, 1⟩

/-- JS division `a / b` of the counts used by `similarity` (both naturals). -/
def Frac.divNat (a b : Nat) : Frac := ⟨a, b⟩

/-- Fraction multiplication. -/
def Frac.mul (a b : Frac) : Frac := ⟨a.num * b.num, a.den * b.den⟩

/-- Fraction addition. -/
def Frac.add (a b : Frac) : Frac := ⟨a.num * b.den + b.num * a.den, a.den * b.den⟩

/-- Fraction comparison `a ≤ b` by cross multiplication (valid for the
positive denominators the engine produces). -/
def Frac.ble (a b : Frac) : Bool := a.num * b.den ≤ b.num * a.den

/-- JS `Math.round` on a fraction with positive denominator:
`round(x) = ⌊x + 1/2⌋`, computed as `⌊(2·num + den) / (2·den)⌋`. -/
def jsRound (f : Frac) : Int := Int.fdiv (2 * f.num + f.den) (2 * f.den)

/-- Maximal leading run of decimal digits, `none` when there is none. -/
def parseDigitsNat (m : List Char) : Option Nat :=
  if m.takeWhile isDigitC = [] then none else some (digitsVal (m.takeWhile isDigitC))

/-- JS `parseInt(s, 10)` on a (pre-trimmed) character list: optional sign,
then the maximal leading run of decimal digits; no digits gives `none`
(JS `NaN`). -/
def parseIntL (l : List Char) : Option Int :=
  match l with
  | [] => none
  | c :: rest =>
    if c = '-' then (parseDigitsNat rest).map (fun n => -(n : Int))
    else if c = '+' then (parseDigitsNat rest).map (fun n => (n : Int))
    else (parseDigitsNat (c :: rest)).map (fun n => (n : Int))

/-- Body of the regex `^(\d+(?:\.\d+)?)$` as an exact fraction:
a maximal leading digit run, optionally followed by `.` and a digit run and
nothing else. -/
def parseDecimal (body : List Char) : Option Frac :=
  let ip := body.takeWhile isDigitC
  if ip = [] then none
  else
    match body.drop ip.length with
    | [] => some ⟨digitsVal ip, 1⟩
    | '.' :: fp =>
      if fp ≠ [] ∧ fp.all isDigitC then
        some ⟨digitsVal ip * 10 ^ fp.length + digitsVal fp, 10 ^ fp.length⟩
      else none
    | _ => none

/-- The regex match `^(\d+(?:\.\d+)?)k$` of `normalizeQuantity`. -/
def kSuffixMatch (l : List Char) : Option Frac :=
  if l.getLast? = some 'k' then parseDecimal l.dropLast else none

/-- `normalizeQuantity` from `script.js`:
trim + lowercase; empty gives 0; `<number>k` gives `Math.round(number*1000)`;
otherwise `parseInt(s, 10)` with `NaN` giving 0. -/
def normalizeQuantity (q : String) : Int :=
  let s := jsLowerL (jsTrimL q.toList)
  if s = [] then 0
  else
    match kSuffixMatch s with
    | some f => jsRound (Frac.mul f ⟨1000, 1⟩)
    | none => (parseIntL s).getD 0

/-- The character-level loop of `parseCSV` from `script.js`, with the
`inQuotes` flag and the `field`, `row`, `rows` accumulators.  Inside quotes a
doubled `"` is an escaped quote and any other character (carriage returns
included) is appended to the field; outside quotes `"` opens a field, `,`
ends a field, `\n` ends a row, and `\r` is skipped. -/
def csvAux : List Char → Bool → List Char → List (List Char) →
    List (List (List Char)) → List (List (List Char))
  | [], _, field, row, rows =>
    if field ≠ [] ∨ row ≠ [] then rows ++ [row ++ [field]] else rows
  | '"' :: '"' :: cs, true, field, row, rows => csvAux cs true (field ++ ['"']) row rows
  | '"' :: cs, true, field, row, rows => csvAux cs false field row rows
  | c :: cs, true, field, row, rows => csvAux cs true (field ++ [c]) row rows
  | '"' :: cs, false, field, row, rows => csvAux cs true field row rows
  | ',' :: cs, false, field, row, rows => csvAux cs false [] (row ++ [field]) rows
  | '\n' :: cs, false, field, row, rows => csvAux cs false [] [] (rows ++ [row ++ [field]])
  | '\r' :: cs, false, field, row, rows => csvAux cs false field row rows
  | c :: cs, false, field, row, rows => csvAux cs false (field ++ [c]) row rows

/-- `parseCSV` from `script.js`. -/
def parseCSV (text : String) : List (List String) :=
  (csvAux text.toList false [] [] []).map (fun row => row.map String.mk)

/-! ### String splitting, slugs, tokens -/

/-- Split a character list at maximal runs of characters satisfying `p`, with
JS `String.split(regex)` edge behaviour: leading and trailing runs produce
empty segments and the empty input produces one empty segment.  `acc` is the
current segment (reversed); `inSeg` is false immediately after a separator
run has started, so later separator characters of the same run are skipped. -/
def splitRunsAux (p : Char → Bool) : List Char → List Char → Bool → List (List Char)
  | [], acc, _ => [acc.reverse]
  | c :: rest, acc, inSeg =>
    if p c then
      if inSeg then acc.reverse :: splitRunsAux p rest [] false
      else splitRunsAux p rest [] false
    else splitRunsAux p rest (c :: acc) true

/-- JS `s.split(/<p>+/)`. -/
def splitRuns (p : Char → Bool) (l : List Char) : List (List Char) :=
  splitRunsAux p l [] true

/-- JS `s.split(sep)` for a one-character separator. -/
def splitOnChar (sep : Char) : List Char → List (List Char)
  | [] => [[]]
  | c :: rest =>
    if c = sep then [] :: splitOnChar sep rest
    else
      match splitOnChar sep rest with
      | s :: ss => (c :: s) :: ss
      | [] => [[c]]

/-- `splitLocations` from `script.js`: trim; empty gives `[""]`; otherwise
pipes are normalized to semicolons, the string is split on runs of `,`/`;`,
tokens are trimmed and empty tokens dropped. -/
def splitLocations (loc : String) : List String :=
  let t := jsTrimL loc.toList
  if t = [] then [""]
  else
    ((((splitRuns (fun c => c = ',' || c = ';')
        (t.map (fun c => if c = '|' then ';' else c))).map
      (fun seg => jsTrimL seg)).filter (fun seg => seg ≠ [])).map String.mk)

/-- `slugify` from `script.js`: lowercase, collapse runs of characters
outside `[a-z0-9]` to single underscores, strip leading/trailing
underscores.  (Joining the nonempty runs of kept characters with `_` is the
same operation: only the first and last segments of the split can be empty.) -/
def slugify (s : String) : String :=
  String.mk (List.intercalate ['_']
    ((splitRuns (fun c => !(isSlugC c)) (jsLowerL s.toList)).filter (fun seg => seg ≠ [])))

/-- The per-character step of JS `replace(/\b\w/g, c => c.toUpperCase())`:
uppercase every word character whose predecessor is not a word character. -/
def titleCaseAux : List Char → Bool → List Char
  | [], _ => []
  | c :: cs, prevWord =>
    (if prevWord = false ∧ isWordC c = true then upperC c else c)
      :: titleCaseAux cs (isWordC c)

/-- `titleCase` from `script.js`. -/
def titleCase (s : String) : String := String.mk (titleCaseAux s.toList false)

/-- `normalizeFilterValue` from `script.js`: trim + lowercase. -/
def normalizeFilterValue (value : String) : String := trimLower value

/-- `tokenizeName` from `script.js`: lowercase, split on whitespace, drop
empty tokens. -/
def tokenizeName (name : String) : List String :=
  ((splitRuns isWsC (jsLowerL name.toList)).filter (fun seg => seg ≠ [])).map String.mk

/-- JS `String.prototype.startsWith`. -/
def jsStartsWith (s p : String) : Bool := p.toList.isPrefixOf s.toList

/-- Decimal digits of a natural number (fuel-based so that the kernel can
evaluate it; the fuel argument strictly dominates the number). -/
def natToStrAux : Nat → Nat → List Char → List Char
  | 0, _, acc => acc
  | fuel + 1, n, acc =>
    if n < 10 then Char.ofNat (48 + n) :: acc
    else natToStrAux fuel (n / 10) (Char.ofNat (48 + n % 10) :: acc)

/-- JS `String(n)` for an integer number. -/
def intToStr (i : Int) : String :=
  if i < 0 then "-" ++ String.mk (natToStrAux ((-i).toNat + 1) (-i).toNat [])
  else String.mk (natToStrAux (i.toNat + 1) i.toNat [])

/-- `deriveQuestName` from `script.js`: strip a shared-prefix token run from
the underscore-separated item identifier (preferring the Arc identifier,
then the Meta identifier, then the slugified name, else dropping all but the
last two tokens) and title-case the remainder. -/
def deriveQuestName (itemId slugName arcId metaId : String) : String :=
  if itemId = "" then ""
  else
    let tokens := (splitOnChar '_' itemId.toList).filter (fun t => t ≠ [])
    if tokens.length ≤ 1 then ""
    else
      let nameTokens :=
        if slugName ≠ "" then (splitOnChar '_' slugName.toList).filter (fun t => t ≠ [])
        else []
      let arcTokens := splitOnChar '_' arcId.toList
      let metaTokens := splitOnChar '_' metaId.toList
      let dc0 :=
        if arcId ≠ "" ∧ jsStartsWith itemId arcId = true ∧ arcTokens.length < tokens.length then
          arcTokens.length
        else if metaId ≠ "" ∧ jsStartsWith itemId metaId = true ∧ metaTokens.length < tokens.length then
          metaTokens.length
        else if nameTokens.length ≠ 0 ∧ nameTokens.length < tokens.length then
          nameTokens.length
        else 0
      let dc := if dc0 ≤ 0 ∨ tokens.length ≤ dc0 then max 1 (tokens.length - 2) else dc0
      let remainder := tokens.drop dc
      if remainder = [] then ""
      else String.mk (titleCaseAux (List.intercalate [' '] remainder) false)

/-! ### The fuzzy scorer -/

/-- `similarity` from `script.js`: lowercase + trim both sides; equal strings
score 1; otherwise `0.6 * tokenScore + 0.4 * charScore` where `tokenScore`
counts the query tokens literally contained in the target's token list over
the larger token count, and `charScore` counts shared distinct characters
over the larger distinct-character count.  The JS float arithmetic is
embedded as exact fractions. -/
def similarity (a0 b0 : String) : Frac :=
  let a := jsTrimL (jsLowerL a0.toList)
  let b := jsTrimL (jsLowerL b0.toList)
  if a = b then ⟨1, 1⟩
  else
    let atoks := splitRuns isWsC a
    let btoks := splitRuns isWsC b
    let shared := (atoks.filter (fun x => btoks.contains x)).length
    let tokenScore := Frac.divNat shared (max atoks.length btoks.length)
    let aset := a.dedup
    let bset := b.dedup
    let inter := (aset.filter (fun ch => bset.contains ch)).length
    let charScore := Frac.divNat inter (max aset.length bset.length)
    Frac.add (Frac.mul ⟨6, 10⟩ tokenScore) (Frac.mul ⟨4, 10⟩ charScore)

/-! ### Normalized records (`toObjects`) -/

/-- A normalized record: the named columns `script.js` reads, plus `extra`
for all other CSV columns (a JS object is a flat map of fields; the code
only ever reads the fields named here).  `QuantityRaw` is the raw string of
the `Quantity` column before `obj.Quantity = normalizeQuantity(obj.Quantity)`
replaces it by the coerced number. -/
structure Row where
  Name : String := ""
  QuantityRaw : String := ""
  Quantity : Int := 0
  _normName : String := ""
  LocationType : String := ""
  Category : String := ""
  Vendor : String := ""
  Source : String := ""
  Station : String := ""
  Tier : String := ""
  ArcRarity : String := ""
  MetaRarity : String := ""
  ArcType : String := ""
  MetaType : String := ""
  ArcFoundIn : String := ""
  MetaWorkbench : String := ""
  ArcValue : String := ""
  ArcStackSize : String := ""
  ArcWeightKg : String := ""
  ArcDescription : String := ""
  MetaDescription : String := ""
  MetaID : String := ""
  ArcID : String := ""
  ItemID : String := ""
  IconURL : String := ""
  extra : List (String × String) := []
deriving DecidableEq, Repr, Inhabited

/-- Update a key of the `extra` field map, JS-object style (overwrite in
place if present, append otherwise). -/
def setExtra (l : List (String × String)) (k v : String) : List (String × String) :=
  if l.any (fun kv => kv.1 = k) then l.map (fun kv => if kv.1 = k then (k, v) else kv)
  else l ++ [(k, v)]

/-- `obj[header[c]] = value`, dispatching on the column name. -/
def setField (o : Row) (k v : String) : Row :=
  if k = "Name" then { o with Name := v }
  else if k = "Quantity" then { o with QuantityRaw := v }
  else if k = "LocationType" then { o with LocationType := v }
  else if k = "Category" then { o with Category := v }
  else if k = "Vendor" then { o with Vendor := v }
  else if k = "Source" then { o with Source := v }
  else if k = "Station" then { o with Station := v }
  else if k = "Tier" then { o with Tier := v }
  else if k = "ArcRarity" then { o with ArcRarity := v }
  else if k = "MetaRarity" then { o with MetaRarity := v }
  else if k = "ArcType" then { o with ArcType := v }
  else if k = "MetaType" then { o with MetaType := v }
  else if k = "ArcFoundIn" then { o with ArcFoundIn := v }
  else if k = "MetaWorkbench" then { o with MetaWorkbench := v }
  else if k = "ArcValue" then { o with ArcValue := v }
  else if k = "ArcStackSize" then { o with ArcStackSize := v }
  else if k = "ArcWeightKg" then { o with ArcWeightKg := v }
  else if k = "ArcDescription" then { o with ArcDescription := v }
  else if k = "MetaDescription" then { o with MetaDescription := v }
  else if k = "MetaID" then { o with MetaID := v }
  else if k = "ArcID" then { o with ArcID := v }
  else if k = "ItemID" then { o with ItemID := v }
  else if k = "IconURL" then { o with IconURL := v }
  else { o with extra := setExtra o.extra k v }

/-- The header loop of `toObjects`: assign `row[c]` (or `""` past the end)
to the field named by `header[c]`, left to right. -/
def assignFields (o : Row) : List String → List String → Row
  | [], _ => o
  | h :: hs, vals => assignFields (setField o h (vals.headD "")) hs vals.tail

/-- Build one raw object from a header and a data row, then coerce
`Quantity` and derive `_normName`, as in `toObjects`. -/
def mkObj (header row : List String) : Row :=
  let o := assignFields {} header row
  let o := { o with Quantity := normalizeQuantity o.QuantityRaw }
  { o with _normName := trimLower o.Name }

/-- The per-row part of `toObjects`: fan the record out over its
`LocationType` tokens when there are several, otherwise collapse the field
back to a scalar (`locs[0] || ""`). -/
def rowRecords (header row : List String) : List Row :=
  let obj := mkObj header row
  let locs := splitLocations obj.LocationType
  if locs.length ≤ 1 then [{ obj with LocationType := locs.headD "" }]
  else locs.map (fun l => { obj with LocationType := l })

/-- The blank-row test of `toObjects`:
`row.length === 1 && row[0].trim() === ""`. -/
def rowBlank (row : List String) : Bool :=
  row.length = 1 && jsTrimS (row.headD "") = ""

/-- `toObjects` from `script.js` (row 0 is the header; blank rows are
skipped; each surviving row contributes its `rowRecords`). -/
def toObjects (rows : List (List String)) : List Row :=
  match rows with
  | [] => []
  | header :: rest =>
    (rest.filter (fun r => !(rowBlank r))).flatMap (fun r => rowRecords header r)

/-! ### Aggregation (`aggregateItems`) -/

/-- The `items.json` metadata the aggregator reads for one item:
`icon`, `stat_block?.weight`, `stat_block?.stackSize`; `""` models a
missing or falsy value. -/
structure Meta where
  icon : String := ""
  weight : String := ""
  stackSize : String := ""
deriving DecidableEq, Repr, Inhabited

/-- One usage entry `{station, tier, quantity, source, questName}`. -/
structure Usage where
  station : String
  tier : String
  quantity : Int
  source : String
  questName : String
deriving DecidableEq, Repr, Inhabited

/-- A grouped record: the scalar fields spread from the seeding row
(`base`), plus the accumulated lists, the usage-dedup key set, the filter
keys and the name-token set (JS `Set`s are modelled as insertion-ordered
lists). -/
structure Entry where
  base : Row
  CategoryList : List String := []
  LocationList : List String := []
  VendorList : List String := []
  SourceList : List String := []
  UsageEntries : List Usage := []
  _usageSet : List String := []
  FilterKeys : List String := []
  _tokenSet : List String := []
deriving DecidableEq, Repr, Inhabited

/-- `pushUnique` from `aggregateItems`. -/
def pushUnique (l : List String) (v : String) : List String :=
  if v = "" then l else if v ∈ l then l else l ++ [v]

/-- `Set.add`: append if not present. -/
def insertKey (keys : List String) (k : String) : List String :=
  if k ∈ keys then keys else keys ++ [k]

/-- `addFilterKey` from `aggregateItems` for a scalar value. -/
def addFilterKey (keys : List String) (ty v : String) : List String :=
  if v = "" then keys
  else if normalizeFilterValue v = "" then keys
  else insertKey keys (ty ++ ":" ++ normalizeFilterValue v)

/-- `addFilterKey` from `aggregateItems` for an array value (arrays are
truthy in JS, so there is no emptiness guard; each element is normalized
and added when nonempty). -/
def addFilterKeyList (keys : List String) (ty : String) (vs : List String) : List String :=
  vs.foldl (fun ks v =>
    if normalizeFilterValue v = "" then ks
    else insertKey ks (ty ++ ":" ++ normalizeFilterValue v)) keys

/-- The four `pushUnique` calls. -/
def mergeLists (e : Entry) (row : Row) : Entry :=
  { e with
    CategoryList := pushUnique e.CategoryList row.Category
    LocationList := pushUnique e.LocationList row.LocationType
    VendorList := pushUnique e.VendorList row.Vendor
    SourceList := pushUnique e.SourceList row.Source }

/-- The thirteen `addFilterKey` calls, in source order. -/
def mergeFilterKeys (e : Entry) (row : Row) : Entry :=
  let ks := e.FilterKeys
  let ks := addFilterKey ks "category" row.Category
  let ks := addFilterKey ks "location" row.LocationType
  let ks := addFilterKey ks "vendor" row.Vendor
  let ks := addFilterKey ks "source" row.Source
  let ks := addFilterKey ks "station" (row.Station ++ "|" ++ row.Tier)
  let ks := addFilterKey ks "rarity" (if row.ArcRarity ≠ "" then row.ArcRarity else row.MetaRarity)
  let ks := addFilterKey ks "type"
    (if row.ArcType ≠ "" then row.ArcType
     else if row.MetaType ≠ "" then row.MetaType else row.Category)
  let ks := addFilterKeyList ks "found" (splitLocations row.ArcFoundIn)
  let ks := addFilterKey ks "workbench" row.MetaWorkbench
  let ks := addFilterKey ks "value" row.ArcValue
  let ks := addFilterKey ks "stack" row.ArcStackSize
  let ks := addFilterKey ks "weight" row.ArcWeightKg
  { e with FilterKeys := ks }

/-- `JSON_DATA_MAP.get`. -/
def lookupMeta (jm : List (String × Meta)) (k : String) : Option Meta :=
  (jm.find? (fun kv => kv.1 = k)).map (fun kv => kv.2)

/-- The `items.json` merge: fill `IconURL`, `ArcWeightKg`, `ArcStackSize`
only when currently empty. -/
def mergeMeta (jm : List (String × Meta)) (e : Entry) : Entry :=
  match lookupMeta jm e.base._normName with
  | none => e
  | some m =>
    let e1 := if e.base.IconURL = "" ∧ m.icon ≠ "" then
        { e with base := { e.base with IconURL := m.icon } } else e
    let e2 := if e1.base.ArcWeightKg = "" ∧ m.weight ≠ "" then
        { e1 with base := { e1.base with ArcWeightKg := m.weight } } else e1
    if e2.base.ArcStackSize = "" ∧ m.stackSize ≠ "" then
      { e2 with base := { e2.base with ArcStackSize := m.stackSize } } else e2

/-- The fallback icon identifier: `(MetaID || ArcID || ItemID || "")`,
lowercased, underscores replaced by dashes. -/
def iconFallbackId (row : Row) : String :=
  let src := if row.MetaID ≠ "" then row.MetaID
    else if row.ArcID ≠ "" then row.ArcID else row.ItemID
  String.mk ((jsLowerL src.toList).map (fun c => if c = '_' then '-' else c))

/-- Fallback icon generation when `IconURL` is still missing. -/
def iconFallback (e : Entry) (row : Row) : Entry :=
  if e.base.IconURL = "" then
    if iconFallbackId row ≠ "" then
      { e with base := { e.base with
          IconURL := "https://cdn.metaforge.app/arc-raiders/icons/"
            ++ iconFallbackId row ++ ".webp" } }
    else e
  else e

/-- The quest name computed for a row (empty unless the station or the
source equals `"Quest"`). -/
def questNameOf (row : Row) : String :=
  if row.Station = "Quest" ∨ row.Source = "Quest" then
    deriveQuestName row.ItemID (slugify row.Name) row.ArcID row.MetaID
  else ""

/-- The usage entry a row contributes. -/
def rowUsage (row : Row) : Usage :=
  ⟨row.Station, row.Tier, row.Quantity, row.Source, questNameOf row⟩

/-- The `"|"`-joined composite usage key
`[station, tier, quantity, source, questName].join("|")`. -/
def usageJoin (u : Usage) : String :=
  u.station ++ "|" ++ u.tier ++ "|" ++ intToStr u.quantity ++ "|"
    ++ u.source ++ "|" ++ u.questName

/-- The usage-entry dedup block of `aggregateItems`. -/
def mergeUsage (e : Entry) (row : Row) : Entry :=
  let u := rowUsage row
  let key := usageJoin u
  if key ∈ e._usageSet then e
  else { e with
    _usageSet := e._usageSet ++ [key]
    UsageEntries := e.UsageEntries ++ [u] }

/-- `tokenizeName(row.Name).forEach(t => entry._tokenSet.add(t))`. -/
def mergeTokens (e : Entry) (row : Row) : Entry :=
  { e with _tokenSet := (tokenizeName row.Name).foldl insertKey e._tokenSet }

/-- The four first-non-empty-wins description/rarity fills. -/
def mergeDescs (e : Entry) (row : Row) : Entry :=
  let e1 := if e.base.ArcDescription = "" ∧ row.ArcDescription ≠ "" then
      { e with base := { e.base with ArcDescription := row.ArcDescription } } else e
  let e2 := if e1.base.MetaDescription = "" ∧ row.MetaDescription ≠ "" then
      { e1 with base := { e1.base with MetaDescription := row.MetaDescription } } else e1
  let e3 := if e2.base.ArcRarity = "" ∧ row.ArcRarity ≠ "" then
      { e2 with base := { e2.base with ArcRarity := row.ArcRarity } } else e2
  if e3.base.MetaRarity = "" ∧ row.MetaRarity ≠ "" then
    { e3 with base := { e3.base with MetaRarity := row.MetaRarity } } else e3

/-- The whole per-row merge body of the `aggregateItems` loop, stages in
source order. -/
def mergeRow (jm : List (String × Meta)) (e : Entry) (row : Row) : Entry :=
  mergeDescs
    (mergeTokens
      (mergeUsage
        (iconFallback
          (mergeMeta jm (mergeFilterKeys (mergeLists e row) row)) row) row) row) row

/-- A fresh grouped record seeded by spreading the row (`{...row, lists}`). -/
def seedEntry (row : Row) : Entry := { base := row }

/-- One iteration of the `aggregateItems` loop over the keyed map, the map
being the insertion-ordered list of entries keyed by `_normName`. -/
def aggStep (jm : List (String × Meta)) (st : List Entry) (row : Row) : List Entry :=
  if st.any (fun e => e.base._normName = row._normName) then
    st.map (fun e => if e.base._normName = row._normName then mergeRow jm e row else e)
  else st ++ [mergeRow jm (seedEntry row) row]

/-- `aggregateItems` from `script.js`.  (The final JS pass drops the
internal `_usageSet` and renames `_tokenSet` to `_tokens`; here both stay on
the record under their internal names.) -/
def aggregateItems (rows : List Row) (jm : List (String × Meta)) : List Entry :=
  rows.foldl (aggStep jm) []

/-! ### The match engine (`search`) and filtering -/

/-- Stable insertion into a sorted list: `x` goes before the first `y` with
`le x y`, so an element earlier in the original list stays before elements
that compare equal to it. -/
def insertSorted {α : Type} (le : α → α → Bool) (x : α) : List α → List α
  | [] => [x]
  | y :: ys => if le x y then x :: y :: ys else y :: insertSorted le x ys

/-- Stable sort (insertion sort).  `Array.prototype.sort` is stable
(ES2019), and for the total-preorder comparators this engine uses the
stable sorted result is unique, so stable insertion sort models it. -/
def stableSort {α : Type} (le : α → α → Bool) : List α → List α
  | [] => []
  | x :: xs => insertSorted le x (stableSort le xs)

/-- `itemKey` from `script.js`. -/
def itemKey (e : Entry) : String := e.base._normName

/-- Code-point lexicographic string order, modelling `localeCompare`-based
sorting (locale collation is modelled as code-point order). -/
def charListLe : List Char → List Char → Bool
  | [], _ => true
  | _ :: _, [] => false
  | a :: as, b :: bs =>
    if a.toNat < b.toNat then true
    else if b.toNat < a.toNat then false
    else charListLe as bs

/-- String comparison used by the result sort. -/
def strLe (a b : String) : Bool := charListLe a.toList b.toList

/-- The `(normalizedName, Station, Tier)` comparator of `dedupeAndSort`. -/
def entryLe (a b : Entry) : Bool :=
  if a.base._normName ≠ b.base._normName then strLe a.base._normName b.base._normName
  else if a.base.Station ≠ b.base.Station then strLe a.base.Station b.base.Station
  else strLe a.base.Tier b.base.Tier

/-- The seen-set dedup loop of `dedupeAndSort`. -/
def dedupeByKeyAux : List Entry → List String → List Entry
  | [], _ => []
  | e :: rest, seen =>
    if itemKey e ∈ seen then dedupeByKeyAux rest seen
    else e :: dedupeByKeyAux rest (itemKey e :: seen)

/-- `dedupeAndSort` from `script.js` (stable sort, as ES2019 requires). -/
def dedupeAndSort (l : List Entry) : List Entry :=
  stableSort entryLe (dedupeByKeyAux l [])

/-- `matchesQuery` from `script.js`. -/
def matchesQuery (item : Entry) (query : String) : Bool :=
  if query = "" then false
  else jsStartsWith item.base._normName query
    || item._tokenSet.any (fun t => jsStartsWith t query)

/-- `applyActiveFilter` from `script.js`, with the active key passed
explicitly instead of read from the module-level variable. -/
def applyActiveFilter (activeKey : String) (l : List Entry) : List Entry :=
  if activeKey = "" then l else l.filter (fun it => activeKey ∈ it.FilterKeys)

/-- The state transition of `toggleFilter`:
`activeFilterKey = activeFilterKey === key ? "" : key`. -/
def toggleFilter (key activeKey : String) : String :=
  if activeKey = key then "" else key

/-- The fuzzy-phase collection loop of `search`: walk the scored list,
skip seen names, push new ones, and break once `results.length >=
maxResults` (checked only after a possible push). -/
def fuzzyCollect (maxResults : Nat) : List (Entry × Frac) → List String → Nat → List Entry
  | [], _, _ => []
  | (it, _) :: rest, seen, cnt =>
    if itemKey it ∈ seen then
      (if maxResults ≤ cnt then [] else fuzzyCollect maxResults rest seen cnt)
    else
      it :: (if maxResults ≤ cnt + 1 then []
        else fuzzyCollect maxResults rest (itemKey it :: seen) (cnt + 1))

/-- `search` from `script.js`, with the grouped items passed explicitly
instead of read from `GROUPED_ITEMS`.  The threshold `0.6` is the exact
fraction `6/10`. -/
def search (items : List Entry) (q : String) (maxResults : Nat) : List Entry :=
  let query := trimLower q
  if query = "" then []
  else
    let pMatches := dedupeAndSort (items.filter (fun it => matchesQuery it query))
    if 0 < pMatches.length then pMatches.take maxResults
    else
      let scored := (items.map (fun it => (it, similarity query it.base._normName))).filter
        (fun x => Frac.ble ⟨6, 10⟩ x.2)
      let sorted := stableSort (fun a b => Frac.ble b.2 a.2) scored
      fuzzyCollect maxResults sorted [] 0

/-! ### Specification-side definitions (from the spec's words) -/

/-- Whitespace-delimited tokens of a string (specification reading: the
empty string has no tokens). -/
def specTokens (s : String) : List (List Char) :=
  (splitRuns isWsC s.toList).filter (fun t => t ≠ [])

/-- The spec's `tokenOverlapRatio`. -/
def specTokenRatio (q t : String) : ℚ :=
  (((specTokens q).filter (fun x => x ∈ specTokens t)).length : ℚ) /
    (max (specTokens q).length (specTokens t).length : ℚ)

/-- The spec's `characterSetOverlapRatio`, over distinct-character sets. -/
def specCharRatio (q t : String) : ℚ :=
  ((q.toList.toFinset ∩ t.toList.toFinset).card : ℚ) /
    (max q.toList.toFinset.card t.toList.toFinset.card : ℚ)

/-- The spec's fuzzy score: 1 on equality, else
`0.6 * tokenOverlapRatio + 0.4 * characterSetOverlapRatio`. -/
def specScore (q t : String) : ℚ :=
  if q = t then 1 else (6/10) * specTokenRatio q t + (4/10) * specCharRatio q t

/-- The spec's fuzzy phase: score every record, keep scores `≥ 0.6`, sort
descending (stable), dedupe by normalized name, cap at `maxResults`. -/
def specFuzzy (items : List Entry) (query : String) (maxResults : Nat) : List Entry :=
  let scored := (items.map (fun it => (it, specScore query it.base._normName))).filter
    (fun x => (6/10 : ℚ) ≤ x.2)
  let sorted := stableSort (fun a b => decide (b.2 ≤ a.2)) scored
  (dedupeByKeyAux (sorted.map Prod.fst) []).take maxResults

/-- Keep the first element for every key value, by an arbitrary key
function (specification-side dedup). -/
def dedupByKeyF {α β : Type} [DecidableEq β] (f : α → β) : List α → List β → List α
  | [], _ => []
  | x :: xs, seen =>
    if f x ∈ seen then dedupByKeyF f xs seen
    else x :: dedupByKeyF f xs (f x :: seen)

/-- Field-wise equality of the scalar fields of a row that aggregation
never writes (every `Row` field except `ArcDescription`, `MetaDescription`,
`ArcRarity`, `MetaRarity`, `IconURL`, `ArcWeightKg`, `ArcStackSize`). -/
def baseFrameEq (a b : Row) : Prop :=
  a.Name = b.Name ∧ a.QuantityRaw = b.QuantityRaw ∧ a.Quantity = b.Quantity
  ∧ a._normName = b._normName ∧ a.LocationType = b.LocationType
  ∧ a.Category = b.Category ∧ a.Vendor = b.Vendor ∧ a.Source = b.Source
  ∧ a.Station = b.Station ∧ a.Tier = b.Tier ∧ a.ArcType = b.ArcType
  ∧ a.MetaType = b.MetaType ∧ a.ArcFoundIn = b.ArcFoundIn
  ∧ a.MetaWorkbench = b.MetaWorkbench ∧ a.ArcValue = b.ArcValue
  ∧ a.MetaID = b.MetaID ∧ a.ArcID = b.ArcID ∧ a.ItemID = b.ItemID
  ∧ a.extra = b.extra

/-- The station-dimension filter key a contributing row produces. -/
def stationKey (row : Row) : String :=
  "station:" ++ normalizeFilterValue (row.Station ++ "|" ++ row.Tier)

/-- Invariant of the `aggregateItems` fold after processing `done`:
entry names are unique; every processed row has an entry carrying its
station filter key; and per entry, the usage-key set mirrors the usage
entries, the usage entries are exactly the join-key dedup of the entries
contributed by the rows of that name, and every name token stems from a
contributing row. -/
def aggInv (done : List Row) (st : List Entry) : Prop :=
  (st.map (fun e => e.base._normName)).Nodup
  ∧ (∀ d ∈ done, ∃ e ∈ st, e.base._normName = d._normName
      ∧ stationKey d ∈ e.FilterKeys)
  ∧ (∀ e ∈ st,
      e._usageSet = e.UsageEntries.map usageJoin
      ∧ e.UsageEntries = dedupByKeyF usageJoin
          ((done.filter (fun r => r._normName = e.base._normName)).map rowUsage) []
      ∧ (∀ t ∈ e._tokenSet, ∃ r ∈ done,
          r._normName = e.base._normName ∧ t ∈ tokenizeName r.Name))

/-- Rows for the C5 counterexample: same name, field-wise different
`(Station, Tier)`, but identical `"|"`-joined composite keys. -/
def c5RowA : Row := { Name := "x", _normName := "x", Station := "a", Tier := "b|1" }

/-- Second C5 counterexample row. -/
def c5RowB : Row := { Name := "x", _normName := "x", Station := "a|b", Tier := "1" }

/-- A row with empty `Station` and `Tier` (all other fields defaulted),
exercising the `"station:|"` filter key. -/
def c10Row : Row := { Name := "x", _normName := "x" }

/-- An all-whitespace-name row: its normalized name is the empty string. -/
def c8Row : Row := { Name := " " }

/-- A grouped record whose normalized name is a token permutation of the
query used in the C2 scenarios. -/
def c2Entry : Entry := { base := { Name := "Ba Ab", _normName := "ba ab" } }

/-! ### General helper lemmas -/

theorem dropWhile_eq_self_of {p : Char → Bool} {l : List Char}
    (h : ∀ c ∈ l, p c = false) : l.dropWhile p = l := by
  cases l with
  | nil => rfl
  | cons a t => simp [List.dropWhile_cons, h a (List.mem_cons_self a t)]

theorem jsTrimL_eq_self {l : List Char} (h : ∀ c ∈ l, isWsC c = false) :
    jsTrimL l = l := by
  unfold jsTrimL
  rw [dropWhile_eq_self_of h,
    dropWhile_eq_self_of (fun c hc => h c (List.mem_reverse.mp hc)),
    List.reverse_reverse]

theorem jsLowerL_eq_self {l : List Char} (h : ∀ c ∈ l, lowerC c = c) :
    jsLowerL l = l := by
  unfold jsLowerL
  exact (List.map_congr_left h).trans (List.map_id l)

theorem trimLower_chars_eq_self {l : List Char}
    (h : ∀ c ∈ l, lowerC c = c ∧ isWsC c = false) : jsLowerL (jsTrimL l) = l := by
  rw [jsTrimL_eq_self (fun c hc => (h c hc).2), jsLowerL_eq_self (fun c hc => (h c hc).1)]

theorem toNat_ofNat_small {n : Nat} (h : n < 55296) : (Char.ofNat n).toNat = n := by
  have hv : n.isValidChar := Or.inl h
  rw [Char.ofNat, dif_pos hv]
  simp [Char.ofNatAux, Char.toNat, UInt32.toNat]

theorem toNat_lowerC (c : Char) :
    (lowerC c).toNat = if 65 ≤ c.toNat ∧ c.toNat ≤ 90 then c.toNat + 32 else c.toNat := by
  unfold lowerC
  split_ifs with h
  · exact toNat_ofNat_small (by omega)
  · rfl

theorem ws_lowerC (c : Char) : isWsC (lowerC c) = isWsC c := by
  rw [Bool.eq_iff_iff]
  simp only [isWsC, Bool.or_eq_true, Bool.and_eq_true, decide_eq_true_eq, toNat_lowerC]
  split_ifs with h <;> omega

theorem lowerC_idem (c : Char) : lowerC (lowerC c) = lowerC c := by
  by_cases h : 65 ≤ c.toNat ∧ c.toNat ≤ 90
  · have h2 : (lowerC c).toNat = c.toNat + 32 := by rw [toNat_lowerC, if_pos h]
    nth_rewrite 1 [lowerC]
    rw [if_neg (by omega)]
  · unfold lowerC
    rw [if_neg h, if_neg h]

theorem digit_lowerC {c : Char} (h : isDigitC c = true) : lowerC c = c := by
  simp only [isDigitC, Bool.and_eq_true, decide_eq_true_eq] at h
  unfold lowerC
  rw [if_neg (by omega)]

theorem digit_not_ws {c : Char} (h : isDigitC c = true) : isWsC c = false := by
  simp only [isDigitC, Bool.and_eq_true, decide_eq_true_eq] at h
  simp only [isWsC, Bool.or_eq_false_iff, Bool.and_eq_false_iff, decide_eq_false_iff_not]
  omega

theorem digit_fix {c : Char} (h : isDigitC c = true) : lowerC c = c ∧ isWsC c = false :=
  ⟨digit_lowerC h, digit_not_ws h⟩

theorem takeWhile_append_not {p : Char → Bool} {x : Char} {rest : List Char}
    (hx : p x = false) :
    ∀ ds : List Char, (∀ c ∈ ds, p c = true) → (ds ++ x :: rest).takeWhile p = ds
  | [], _ => by simp [List.takeWhile_cons, hx]
  | a :: t, hall => by
    have ha := hall a (List.mem_cons_self a t)
    simp only [List.cons_append, List.takeWhile_cons, ha, if_true]
    exact congrArg (a :: ·)
      (takeWhile_append_not hx t (fun c hc => hall c (List.mem_cons_of_mem a hc)))

theorem jsRound_int (n : Int) : jsRound ⟨n, 1⟩ = n := by
  simp only [jsRound]
  rw [Int.fdiv_eq_ediv _ (by omega)]
  omega

theorem jsRound_toRat {f : Frac} (h : 0 < f.den) : jsRound f = ⌊f.toRat + 1/2⌋ := by
  simp only [jsRound, Frac.toRat]
  have h2 : (0:ℤ) ≤ 2 * (f.den : ℤ) := by positivity
  rw [Int.fdiv_eq_ediv _ h2]
  have hd : (f.den : ℚ) ≠ 0 := by positivity
  have harg : (f.num : ℚ) / (f.den : ℚ) + 1/2
      = ((2 * f.num + (f.den : ℤ) : ℤ) : ℚ) / (((2 * f.den : ℕ) : ℕ) : ℚ) := by
    push_cast
    field_simp
    ring
  rw [harg, Rat.floor_intCast_div_natCast]
  push_cast
  omega

/-! ### Lemmas about `normalizeQuantity` -/

theorem kSuffix_int_digits {ds : List Char} (hds : ∀ c ∈ ds, isDigitC c = true)
    (hne : ds ≠ []) : kSuffixMatch (ds ++ ['k']) = some ⟨digitsVal ds, 1⟩ := by
  unfold kSuffixMatch
  rw [List.getLast?_concat, if_pos rfl, List.dropLast_concat]
  simp only [parseDecimal, List.takeWhile_eq_self_iff.mpr hds, if_neg hne,
    List.drop_length]

theorem kSuffix_frac_digits {ds fs : List Char} (hds : ∀ c ∈ ds, isDigitC c = true)
    (hne : ds ≠ []) (hfs : ∀ c ∈ fs, isDigitC c = true) (hfne : fs ≠ []) :
    kSuffixMatch (ds ++ '.' :: fs ++ ['k'])
      = some ⟨digitsVal ds * 10 ^ fs.length + digitsVal fs, 10 ^ fs.length⟩ := by
  have hassoc : ds ++ '.' :: fs ++ ['k'] = (ds ++ '.' :: fs) ++ ['k'] := by simp
  rw [hassoc]
  unfold kSuffixMatch
  rw [List.getLast?_concat, if_pos rfl, List.dropLast_concat]
  have htw : (ds ++ '.' :: fs).takeWhile isDigitC = ds :=
    takeWhile_append_not (by decide) ds hds
  simp only [parseDecimal, htw, if_neg hne]
  rw [show (ds ++ '.' :: fs).drop ds.length = '.' :: fs from List.drop_left ds ('.' :: fs)]
  simp [List.all_eq_true.mpr hfs, hfne]

theorem kSuffix_none_of_no_k {l : List Char} (h : ∀ x ∈ l, x ≠ 'k') :
    kSuffixMatch l = none := by
  unfold kSuffixMatch
  rw [if_neg]
  intro hlast
  exact h 'k' (List.mem_of_getLast?_eq_some hlast) rfl

theorem kSuffix_none_headnondigit {c : Char} {rest : List Char}
    (hcd : isDigitC c = false) : kSuffixMatch (c :: rest) = none := by
  unfold kSuffixMatch
  split_ifs with hlast
  · cases rest with
    | nil => simp [parseDecimal]
    | cons r rs =>
      rw [List.dropLast_cons_of_ne_nil (by simp)]
      simp [parseDecimal, List.takeWhile_cons, hcd]
  · rfl

theorem kSuffix_none_mixed {ds rest : List Char} {c : Char}
    (hds : ∀ x ∈ ds, isDigitC x = true) (hne : ds ≠ [])
    (hcd : isDigitC c = false) (hdot : c ≠ '.') (hk : c ≠ 'k') :
    kSuffixMatch (ds ++ c :: rest) = none := by
  unfold kSuffixMatch
  split_ifs with hlast
  · cases rest with
    | nil =>
      rw [List.getLast?_concat] at hlast
      exact absurd (Option.some.inj hlast) hk
    | cons r rs =>
      rw [List.dropLast_append_of_ne_nil _ (by simp),
        List.dropLast_cons_of_ne_nil (by simp)]
      simp only [parseDecimal, takeWhile_append_not hcd ds hds, if_neg hne]
      rw [show (ds ++ c :: (r :: rs).dropLast).drop ds.length = c :: (r :: rs).dropLast
        from List.drop_left ds _]
      split
      · rename_i heq
        exact absurd heq (by simp)
      · rename_i fp heq
        exact absurd (List.head_eq_of_cons_eq heq) hdot
      · rfl
  · rfl

theorem parseIntL_digits_lead {ds tl : List Char}
    (hds : ∀ c ∈ ds, isDigitC c = true) (hne : ds ≠ [])
    (htw : (ds ++ tl).takeWhile isDigitC = ds) :
    parseIntL (ds ++ tl) = some (digitsVal ds) := by
  cases ds with
  | nil => exact absurd rfl hne
  | cons d dt =>
    have hd := hds d (List.mem_cons_self d dt)
    have hd1 : d ≠ '-' := by rintro rfl; exact absurd hd (by decide)
    have hd2 : d ≠ '+' := by rintro rfl; exact absurd hd (by decide)
    simp only [List.cons_append, parseIntL, if_neg hd1, if_neg hd2]
    have htw' : (d :: (dt ++ tl)).takeWhile isDigitC = d :: dt := by
      rw [← List.cons_append]; exact htw
    simp [parseDigitsNat, htw']

theorem normalizeQuantity_eval_some {l : List Char}
    (hfix : ∀ x ∈ l, lowerC x = x ∧ isWsC x = false) (hne : l ≠ [])
    {f : Frac} (hf : kSuffixMatch l = some f) :
    normalizeQuantity (String.mk l) = jsRound (Frac.mul f ⟨1000, 1⟩) := by
  simp only [normalizeQuantity]
  rw [show (String.mk l).toList = l from rfl, trimLower_chars_eq_self hfix,
    if_neg hne, hf]

theorem normalizeQuantity_eval_none {l : List Char}
    (hfix : ∀ x ∈ l, lowerC x = x ∧ isWsC x = false) (hne : l ≠ [])
    (hf : kSuffixMatch l = none) :
    normalizeQuantity (String.mk l) = (parseIntL l).getD 0 := by
  simp only [normalizeQuantity]
  rw [show (String.mk l).toList = l from rfl, trimLower_chars_eq_self hfix,
    if_neg hne, hf]

/-- C3 counterexample: the input `"3.7"` neither matches `<number>k` nor is a
bare integer string, so by the claim it should normalize to 0; the code's
`parseInt` semantics instead yields the leading-digit-run value 3. -/
theorem normalizeQuantity_c3_counterexample :
    normalizeQuantity "3.7" = 3 ∧ ¬ normalizeQuantity "3.7" = 0 := by decide

/-- C3 amended: quantity normalization is total; a string matching
`<number>k` yields `round(number * 1000)` (conjuncts 1 and 2); a bare
(optionally negative) integer string yields that integer (conjuncts 3 and 5);
any other string whose trimmed form starts with a digit run yields the value
of that maximal leading digit run, `parseInt`-style (conjunct 4); a string
with no leading sign or digit yields 0 (conjuncts 6 and 7). -/
theorem normalizeQuantity_c3_amended
    (ds fs rest : List Char) (c : Char)
    (hds : ∀ x ∈ ds, isDigitC x = true) (hne : ds ≠ [])
    (hfs : ∀ x ∈ fs, isDigitC x = true) (hfne : fs ≠ [])
    (hcd : isDigitC c = false)
    (hcfix : ∀ x ∈ c :: rest, lowerC x = x ∧ isWsC x = false)
    (hdot : c ≠ '.') (hk : c ≠ 'k') (hmin : c ≠ '-') (hplus : c ≠ '+') :
    normalizeQuantity (String.mk (ds ++ ['k'])) = (digitsVal ds : Int) * 1000
    ∧ normalizeQuantity (String.mk (ds ++ '.' :: fs ++ ['k']))
        = ⌊((digitsVal ds : ℚ) + (digitsVal fs : ℚ) / (10:ℚ) ^ fs.length) * 1000 + 1/2⌋
    ∧ normalizeQuantity (String.mk ds) = (digitsVal ds : Int)
    ∧ normalizeQuantity (String.mk (ds ++ c :: rest)) = (digitsVal ds : Int)
    ∧ normalizeQuantity (String.mk ('-' :: ds)) = -(digitsVal ds : Int)
    ∧ normalizeQuantity (String.mk (c :: rest)) = 0
    ∧ normalizeQuantity "" = 0 := by
  have hkfix : lowerC 'k' = 'k' ∧ isWsC 'k' = false := by decide
  have hdotfix : lowerC '.' = '.' ∧ isWsC '.' = false := by decide
  have hminfix : lowerC '-' = '-' ∧ isWsC '-' = false := by decide
  refine ⟨?_, ?_, ?_, ?_, ?_, ?_, by decide⟩
  · -- integer k form
    have hfix : ∀ x ∈ ds ++ ['k'], lowerC x = x ∧ isWsC x = false := by
      intro x hx
      rcases List.mem_append.mp hx with h | h
      · exact digit_fix (hds x h)
      · rcases List.mem_singleton.mp h with rfl; exact hkfix
    rw [normalizeQuantity_eval_some hfix (by simp) (kSuffix_int_digits hds hne)]
    have hmul : Frac.mul ⟨(digitsVal ds : Int), 1⟩ ⟨1000, 1⟩
        = ⟨(digitsVal ds : Int) * 1000, 1⟩ := rfl
    rw [hmul, jsRound_int]
  · -- fractional k form
    have hfix : ∀ x ∈ ds ++ '.' :: fs ++ ['k'], lowerC x = x ∧ isWsC x = false := by
      intro x hx
      rcases List.mem_append.mp hx with h | h
      · rcases List.mem_append.mp h with h | h
        · exact digit_fix (hds x h)
        · rcases List.mem_cons.mp h with rfl | h
          · exact hdotfix
          · exact digit_fix (hfs x h)
      · rcases List.mem_singleton.mp h with rfl; exact hkfix
    rw [normalizeQuantity_eval_some hfix (by simp)
      (kSuffix_frac_digits hds hne hfs hfne)]
    have hrnd := jsRound_toRat
      (f := Frac.mul ⟨(digitsVal ds : Int) * 10 ^ fs.length + (digitsVal fs : Int),
        10 ^ fs.length⟩ ⟨1000, 1⟩)
      (by show 0 < 10 ^ fs.length * 1; positivity)
    rw [hrnd]
    congr 1
    have h10 : ((10:ℚ) ^ fs.length) ≠ 0 := by positivity
    simp only [Frac.mul, Frac.toRat]
    push_cast
    field_simp
  · -- bare digits
    have hfix : ∀ x ∈ ds, lowerC x = x ∧ isWsC x = false :=
      fun x hx => digit_fix (hds x hx)
    rw [normalizeQuantity_eval_none hfix hne
      (kSuffix_none_of_no_k (fun x hx h => by
        subst h; exact absurd (hds _ hx) (by decide)))]
    have htw : (ds ++ ([] : List Char)).takeWhile isDigitC = ds := by
      rw [List.append_nil, List.takeWhile_eq_self_iff.mpr hds]
    have hp := parseIntL_digits_lead hds hne htw
    rw [List.append_nil] at hp
    rw [hp]
    rfl
  · -- leading digit run followed by junk (parseInt semantics)
    have hfix : ∀ x ∈ ds ++ c :: rest, lowerC x = x ∧ isWsC x = false := by
      intro x hx
      rcases List.mem_append.mp hx with h | h
      · exact digit_fix (hds x h)
      · exact hcfix x h
    rw [normalizeQuantity_eval_none hfix (by simp [hne])
      (kSuffix_none_mixed hds hne hcd hdot hk),
      parseIntL_digits_lead hds hne (takeWhile_append_not hcd ds hds)]
    rfl
  · -- negative integer
    have hfix : ∀ x ∈ '-' :: ds, lowerC x = x ∧ isWsC x = false := by
      intro x hx
      rcases List.mem_cons.mp hx with rfl | h
      · exact hminfix
      · exact digit_fix (hds x h)
    rw [normalizeQuantity_eval_none hfix (by simp)
      (kSuffix_none_of_no_k (fun x hx h => by
        subst h
        rcases List.mem_cons.mp hx with h | h
        · exact absurd h (by decide)
        · exact absurd (hds _ h) (by decide)))]
    simp only [parseIntL, if_pos rfl, parseDigitsNat,
      List.takeWhile_eq_self_iff.mpr hds, if_neg hne]
    rfl
  · -- no leading digit or sign
    rw [normalizeQuantity_eval_none hcfix (by simp)
      (kSuffix_none_headnondigit hcd)]
    simp [parseIntL, if_neg hmin, if_neg hplus, parseDigitsNat,
      List.takeWhile_cons, hcd]

/-- Witness for `normalizeQuantity_c3_amended` at
`ds = "2"`, `fs = "5"`, `c = 'x'`, `rest = []`. -/
theorem normalizeQuantity_c3_amended_witness :
    ((∀ x ∈ ['2'], isDigitC x = true) ∧ (['2'] : List Char) ≠ [] ∧
      (∀ x ∈ ['5'], isDigitC x = true) ∧ (['5'] : List Char) ≠ [] ∧
      isDigitC 'x' = false ∧ (∀ x ∈ ['x'], lowerC x = x ∧ isWsC x = false) ∧
      'x' ≠ '.' ∧ 'x' ≠ 'k' ∧ 'x' ≠ '-' ∧ 'x' ≠ '+')
    ∧ (normalizeQuantity (String.mk (['2'] ++ ['k'])) = (digitsVal ['2'] : Int) * 1000
      ∧ normalizeQuantity (String.mk (['2'] ++ '.' :: ['5'] ++ ['k']))
          = ⌊((digitsVal ['2'] : ℚ) + (digitsVal ['5'] : ℚ) / (10:ℚ) ^ (['5'] : List Char).length) * 1000 + 1/2⌋
      ∧ normalizeQuantity (String.mk ['2']) = (digitsVal ['2'] : Int)
      ∧ normalizeQuantity (String.mk (['2'] ++ 'x' :: [])) = (digitsVal ['2'] : Int)
      ∧ normalizeQuantity (String.mk ('-' :: ['2'])) = -(digitsVal ['2'] : Int)
      ∧ normalizeQuantity (String.mk ('x' :: [])) = 0
      ∧ normalizeQuantity "" = 0) :=
  ⟨⟨by decide, by decide, by decide, by decide, by decide, by decide,
    by decide, by decide, by decide, by decide⟩,
   normalizeQuantity_c3_amended ['2'] ['5'] [] 'x' (by decide) (by decide)
    (by decide) (by decide) (by decide) (by decide) (by decide) (by decide)
    (by decide) (by decide)⟩


/-! ### Lemmas and claims about `parseCSV` -/

theorem csvAux_no_cr {cs : List Char} {field : List Char} {row : List (List Char)}
    {rows : List (List (List Char))}
    (hcs : ∀ c ∈ cs, c ≠ '"') (hf : '\r' ∉ field)
    (hrow : ∀ f ∈ row, '\r' ∉ f)
    (hrows : ∀ r ∈ rows, ∀ f ∈ r, '\r' ∉ f) :
    ∀ r ∈ csvAux cs false field row rows, ∀ f ∈ r, '\r' ∉ f := by
  induction cs generalizing field row rows with
  | nil =>
    intro r hr
    simp only [csvAux] at hr
    split_ifs at hr with h
    · rcases List.mem_append.mp hr with h' | h'
      · exact hrows r h'
      · rcases List.mem_singleton.mp h' with rfl
        intro f hfm
        rcases List.mem_append.mp hfm with h'' | h''
        · exact hrow f h''
        · rcases List.mem_singleton.mp h'' with rfl
          exact hf
    · exact hrows r hr
  | cons c cs ih =>
    have hq : c ≠ '"' := hcs c (List.mem_cons_self c cs)
    have hcs' : ∀ x ∈ cs, x ≠ '"' := fun x hx => hcs x (List.mem_cons_of_mem c hx)
    by_cases hcomma : c = ','
    · subst hcomma
      intro r hr
      rw [show csvAux (',' :: cs) false field row rows
          = csvAux cs false [] (row ++ [field]) rows from rfl] at hr
      refine ih hcs' (by simp) ?_ hrows r hr
      intro f hfm
      rcases List.mem_append.mp hfm with h' | h'
      · exact hrow f h'
      · rcases List.mem_singleton.mp h' with rfl; exact hf
    · by_cases hnl : c = '\n'
      · subst hnl
        intro r hr
        rw [show csvAux ('\n' :: cs) false field row rows
            = csvAux cs false [] [] (rows ++ [row ++ [field]]) from rfl] at hr
        refine ih hcs' (by simp) (by simp) ?_ r hr
        intro r' hr'
        rcases List.mem_append.mp hr' with h' | h'
        · exact hrows r' h'
        · rcases List.mem_singleton.mp h' with rfl
          intro f hfm
          rcases List.mem_append.mp hfm with h'' | h''
          · exact hrow f h''
          · rcases List.mem_singleton.mp h'' with rfl; exact hf
      · by_cases hcr : c = '\r'
        · subst hcr
          intro r hr
          rw [show csvAux ('\r' :: cs) false field row rows
              = csvAux cs false field row rows from rfl] at hr
          exact ih hcs' hf hrow hrows r hr
        · intro r hr
          have hstep : csvAux (c :: cs) false field row rows
              = csvAux cs false (field ++ [c]) row rows := by
            simp [csvAux, hq, hcomma, hnl, hcr]
          rw [hstep] at hr
          refine ih hcs' ?_ hrow hrows r hr
          intro hmem
          rcases List.mem_append.mp hmem with h' | h'
          · exact hf h'
          · rcases List.mem_singleton.mp h' with h''
            exact hcr h''.symm

/-- C6 counterexample: inside a quoted field the decoder keeps a raw
carriage return, so the input `"a\rb"` (quotes included) decodes to a field
that contains CR, contradicting the claim that CR is dropped unconditionally. -/
theorem parseCSV_c6_counterexample :
    ¬ (∀ row ∈ parseCSV "\"a\rb\"", ∀ f ∈ row, '\r' ∉ f.toList) := by decide

/-- C6 amended: the decoder ignores carriage returns only outside quoted
fields (inside a quoted field a CR is appended to the field like any other
character); in particular, for every input containing no double quote, no
decoded field contains a raw carriage return. -/
theorem parseCSV_c6_amended (text : String)
    (hq : ∀ c ∈ text.toList, c ≠ '"') :
    ∀ row ∈ parseCSV text, ∀ f ∈ row, '\r' ∉ f.toList := by
  intro row hrow f hf
  unfold parseCSV at hrow
  rcases List.mem_map.mp hrow with ⟨r, hr, rfl⟩
  rcases List.mem_map.mp hf with ⟨g, hg, rfl⟩
  show '\r' ∉ g
  exact csvAux_no_cr hq (by simp) (by simp) (by simp) r hr g hg

/-- Witness for `parseCSV_c6_amended` on the quote-free input `"a\rb,c"`. -/
theorem parseCSV_c6_amended_witness :
    (∀ c ∈ ("a\rb,c" : String).toList, c ≠ '"')
    ∧ (∀ row ∈ parseCSV "a\rb,c", ∀ f ∈ row, '\r' ∉ f.toList) :=
  ⟨by decide, parseCSV_c6_amended "a\rb,c" (by decide)⟩

/-! ### List and sorting lemmas -/

theorem insertSorted_mem {α : Type} {le : α → α → Bool} {x a : α} :
    ∀ {l : List α}, (x ∈ insertSorted le a l ↔ x = a ∨ x ∈ l)
  | [] => by simp [insertSorted]
  | y :: ys => by
    unfold insertSorted
    split_ifs with h
    · simp
    · rw [List.mem_cons, insertSorted_mem (l := ys), List.mem_cons]
      tauto

theorem stableSort_mem {α : Type} {le : α → α → Bool} {x : α} :
    ∀ {l : List α}, (x ∈ stableSort le l ↔ x ∈ l)
  | [] => by simp [stableSort]
  | y :: ys => by
    unfold stableSort
    rw [insertSorted_mem, stableSort_mem (l := ys), List.mem_cons]

theorem insertSorted_length {α : Type} {le : α → α → Bool} {a : α} :
    ∀ {l : List α}, (insertSorted le a l).length = l.length + 1
  | [] => rfl
  | y :: ys => by
    unfold insertSorted
    split_ifs with h
    · rfl
    · simp [insertSorted_length (l := ys)]

theorem stableSort_length {α : Type} {le : α → α → Bool} :
    ∀ {l : List α}, (stableSort le l).length = l.length
  | [] => rfl
  | y :: ys => by
    unfold stableSort
    rw [insertSorted_length, stableSort_length (l := ys), List.length_cons]

theorem dedupeByKeyAux_subset :
    ∀ {l : List Entry} {seen : List String}, dedupeByKeyAux l seen ⊆ l
  | [], _ => by simp [dedupeByKeyAux]
  | e :: rest, seen => by
    unfold dedupeByKeyAux
    split_ifs with h
    · exact (dedupeByKeyAux_subset (l := rest)).trans (List.subset_cons_self e rest)
    · exact List.cons_subset_cons e (dedupeByKeyAux_subset (l := rest))

theorem dedupeByKeyAux_cons_ne_nil {x : Entry} {l : List Entry} :
    dedupeByKeyAux (x :: l) [] ≠ [] := by
  unfold dedupeByKeyAux
  simp

theorem fuzzyCollect_subset {max : Nat} :
    ∀ {l : List (Entry × Frac)} {seen : List String} {cnt : Nat},
      fuzzyCollect max l seen cnt ⊆ l.map Prod.fst
  | [], _, _ => by simp [fuzzyCollect]
  | (it, s) :: rest, seen, cnt => by
    unfold fuzzyCollect
    split_ifs with h h2 h3
    · simp
    · exact (fuzzyCollect_subset (l := rest)).trans
        (by simp [List.subset_cons_of_subset, List.Subset.refl])
    · intro a ha
      rcases List.mem_singleton.mp (by simpa using ha) with rfl
      simp
    · intro a ha
      rcases List.mem_cons.mp ha with rfl | ha
      · simp
      · exact List.mem_cons_of_mem _ (fuzzyCollect_subset (l := rest) ha)

theorem fuzzyCollect_eq_take {max : Nat} :
    ∀ {l : List (Entry × Frac)} {seen : List String} {cnt : Nat}, cnt < max →
      fuzzyCollect max l seen cnt
        = (dedupeByKeyAux (l.map Prod.fst) seen).take (max - cnt)
  | [], _, _, _ => by simp [fuzzyCollect, dedupeByKeyAux]
  | (it, s) :: rest, seen, cnt, hlt => by
    unfold fuzzyCollect
    simp only [List.map_cons]
    unfold dedupeByKeyAux
    by_cases h : itemKey it ∈ seen
    · simp only [if_pos h]
      rw [if_neg (by omega)]
      exact fuzzyCollect_eq_take hlt
    · simp only [if_neg h]
      have hmc : max - cnt = (max - (cnt + 1)) + 1 := by omega
      rw [hmc, List.take_succ_cons]
      congr 1
      by_cases h2 : max ≤ cnt + 1
      · rw [if_pos h2, show max - (cnt + 1) = 0 by omega, List.take_zero]
      · rw [if_neg h2]
        exact fuzzyCollect_eq_take (by omega)

/-- C7: filtering is a pure predicate — a record is kept iff the active key
is empty or a member of its FilterKeys — and, starting from the cleared
filter state, toggling the same key twice restores the empty active key, so
an identical query yields the unfiltered result list. -/
theorem applyActiveFilter_toggle_c7 :
    (∀ (key : String) (l : List Entry) (it : Entry),
      it ∈ applyActiveFilter key l ↔ it ∈ l ∧ (key = "" ∨ key ∈ it.FilterKeys))
    ∧ (∀ key : String, toggleFilter key (toggleFilter key "") = "")
    ∧ (∀ (key : String) (l : List Entry),
      applyActiveFilter (toggleFilter key (toggleFilter key "")) l = l) := by
  have htog : ∀ key : String, toggleFilter key (toggleFilter key "") = "" := by
    intro key
    by_cases hk : ("" : String) = key
    · simp [toggleFilter, ← hk]
    · simp [toggleFilter, hk]
  refine ⟨?_, htog, ?_⟩
  · intro key l it
    unfold applyActiveFilter
    split_ifs with h
    · subst h; simp
    · simp [List.mem_filter, h]
  · intro key l
    rw [htog key]
    simp [applyActiveFilter]

/-- C4: a data row whose `LocationType` splits into more than one token
fans out into one normalized record per token, all other fields identical
(writing the original scalar back over `LocationType` recovers the base
object exactly); a row with one or zero tokens yields one record with the
field collapsed to a scalar.  For the concrete dataset of the claim, the
normalizer produces two records and the aggregator merges them into a
single grouped record with `LocationList = ["Bunker", "Vault"]` whose
FilterKeys contain `"location:bunker"` and `"location:vault"`. -/
theorem toObjects_fanout_c4 (header row header2 row2 : List String)
    (h1 : 1 < (splitLocations (mkObj header row).LocationType).length)
    (h2 : (splitLocations (mkObj header2 row2).LocationType).length ≤ 1) :
    ((rowRecords header row).map (fun r => r.LocationType)
        = splitLocations (mkObj header row).LocationType
      ∧ ∀ rec ∈ rowRecords header row,
          { rec with LocationType := (mkObj header row).LocationType }
            = mkObj header row)
    ∧ rowRecords header2 row2
        = [{ mkObj header2 row2 with
            LocationType :=
              (splitLocations (mkObj header2 row2).LocationType).headD "" }]
    ∧ ((toObjects [["Name", "LocationType"], ["Circuit Board", "Bunker|Vault"]]).length = 2
      ∧ (toObjects [["Name", "LocationType"], ["Circuit Board", "Bunker|Vault"]]).map
          (fun r => r.LocationType) = ["Bunker", "Vault"]
      ∧ (aggregateItems
          (toObjects [["Name", "LocationType"], ["Circuit Board", "Bunker|Vault"]]) []).length = 1
      ∧ (aggregateItems
          (toObjects [["Name", "LocationType"], ["Circuit Board", "Bunker|Vault"]]) []).map
          (fun e => e.LocationList) = [["Bunker", "Vault"]]
      ∧ ∀ e ∈ aggregateItems
          (toObjects [["Name", "LocationType"], ["Circuit Board", "Bunker|Vault"]]) [],
          "location:bunker" ∈ e.FilterKeys ∧ "location:vault" ∈ e.FilterKeys) := by
  refine ⟨⟨?_, ?_⟩, ?_, by decide⟩
  · unfold rowRecords
    rw [if_neg (by omega)]
    rw [List.map_map]
    exact (List.map_congr_left (fun a _ => rfl)).trans (List.map_id _)
  · intro rec hrec
    unfold rowRecords at hrec
    rw [if_neg (by omega)] at hrec
    rcases List.mem_map.mp hrec with ⟨loc, _, rfl⟩
    rfl
  · unfold rowRecords
    rw [if_pos h2]

/-- Witness for `toObjects_fanout_c4`: a fanning row (`"x|y"`) and a scalar
row (`"z"`). -/
theorem toObjects_fanout_c4_witness :
    (1 < (splitLocations (mkObj ["Name", "LocationType"] ["A", "x|y"]).LocationType).length)
    ∧ ((splitLocations (mkObj ["Name", "LocationType"] ["B", "z"]).LocationType).length ≤ 1)
    ∧ ((rowRecords ["Name", "LocationType"] ["A", "x|y"]).map (fun r => r.LocationType)
        = splitLocations (mkObj ["Name", "LocationType"] ["A", "x|y"]).LocationType) :=
  ⟨by decide, by decide,
    (toObjects_fanout_c4 ["Name", "LocationType"] ["A", "x|y"]
      ["Name", "LocationType"] ["B", "z"] (by decide) (by decide)).1.1⟩

/-- C1: for a nonempty normalized query, if some grouped record matches the
prefix phase (normalized name starts with the query, or some name token
does), then `search` returns exactly the prefix-phase pipeline (filter,
dedupe, sort, cap) and every returned record is a prefix-phase match — the
fuzzy phase is never consulted; in particular a query equal to some
record's normalized name always triggers this. -/
theorem search_prefix_c1 (items : List Entry) (q : String) (max : Nat)
    (hq : trimLower q ≠ "")
    (hex : (∃ it ∈ items, matchesQuery it (trimLower q) = true)
         ∨ (∃ it ∈ items, it.base._normName = trimLower q)) :
    search items q max
      = (dedupeAndSort (items.filter (fun it => matchesQuery it (trimLower q)))).take max
    ∧ ∀ it ∈ search items q max, matchesQuery it (trimLower q) = true := by
  have hex' : ∃ it ∈ items, matchesQuery it (trimLower q) = true := by
    rcases hex with h | ⟨it, hit, hname⟩
    · exact h
    · refine ⟨it, hit, ?_⟩
      unfold matchesQuery
      rw [if_neg hq, hname]
      have hsw : jsStartsWith (trimLower q) (trimLower q) = true := by
        unfold jsStartsWith
        exact List.isPrefixOf_iff_prefix.mpr (List.prefix_refl _)
      simp [hsw]
  obtain ⟨it0, hit0, hm0⟩ := hex'
  have hfil : it0 ∈ items.filter (fun it => matchesQuery it (trimLower q)) :=
    List.mem_filter.mpr ⟨hit0, hm0⟩
  have hlen : 0 < (dedupeAndSort
      (items.filter (fun it => matchesQuery it (trimLower q)))).length := by
    unfold dedupeAndSort
    rw [stableSort_length]
    rcases List.exists_cons_of_ne_nil (List.ne_nil_of_mem hfil) with ⟨x, xs, hx⟩
    rw [hx]
    exact List.length_pos.mpr (dedupeByKeyAux_cons_ne_nil (x := x) (l := xs))
  have hsearch : search items q max
      = (dedupeAndSort (items.filter (fun it => matchesQuery it (trimLower q)))).take max := by
    simp only [search]
    rw [if_neg hq, if_pos hlen]
  refine ⟨hsearch, ?_⟩
  intro it hit
  rw [hsearch] at hit
  have h1 := List.mem_of_mem_take hit
  unfold dedupeAndSort at h1
  have h2 := stableSort_mem.mp h1
  have h3 := dedupeByKeyAux_subset h2
  exact (List.mem_filter.mp h3).2

/-- Witness for `search_prefix_c1`: one grouped record named `"iron ore"`
and the query `"iron ore"`. -/
theorem search_prefix_c1_witness :
    (trimLower "iron ore" ≠ "")
    ∧ search [{ base := { Name := "Iron Ore", _normName := "iron ore" } }] "iron ore" 50
      = (dedupeAndSort
          (([{ base := { Name := "Iron Ore", _normName := "iron ore" } }] : List Entry).filter
            (fun it => matchesQuery it (trimLower "iron ore")))).take 50 :=
  ⟨by decide,
    (search_prefix_c1 [{ base := { Name := "Iron Ore", _normName := "iron ore" } }]
      "iron ore" 50 (by decide)
      (Or.inr (by decide))).1⟩

/-! ### Growth lemmas for the aggregation primitives -/

theorem pushUnique_grows (l : List String) (v : String) : l <+: pushUnique l v := by
  unfold pushUnique
  split_ifs <;> first | exact List.prefix_refl _ | exact List.prefix_append _ _

theorem insertKey_grows (l : List String) (k : String) : l <+: insertKey l k := by
  unfold insertKey
  split_ifs <;> first | exact List.prefix_refl _ | exact List.prefix_append _ _

theorem insertKey_mem_iff (l : List String) (k x : String) :
    x ∈ insertKey l k ↔ x ∈ l ∨ x = k := by
  unfold insertKey
  split_ifs with h
  · constructor
    · exact Or.inl
    · rintro (h' | rfl) <;> assumption
  · simp

theorem addFilterKey_grows (l : List String) (ty v : String) :
    l <+: addFilterKey l ty v := by
  unfold addFilterKey
  split_ifs <;> first | exact List.prefix_refl _ | exact insertKey_grows _ _

theorem addFilterKeyList_grows :
    ∀ (vs : List String) (l : List String) (ty : String), l <+: addFilterKeyList l ty vs
  | [], l, ty => List.prefix_refl _
  | v :: vs, l, ty => by
    unfold addFilterKeyList
    rw [List.foldl_cons]
    have h2 := addFilterKeyList_grows vs
      (if normalizeFilterValue v = "" then l
       else insertKey l (ty ++ ":" ++ normalizeFilterValue v)) ty
    unfold addFilterKeyList at h2
    refine List.IsPrefix.trans ?_ h2
    split_ifs
    · exact List.prefix_refl _
    · exact insertKey_grows _ _

theorem foldlInsert_grows :
    ∀ (ts : List String) (l : List String), l <+: ts.foldl insertKey l
  | [], l => List.prefix_refl _
  | t :: ts, l => by
    rw [List.foldl_cons]
    exact (insertKey_grows l t).trans (foldlInsert_grows ts _)

theorem foldlInsert_mem :
    ∀ (ts : List String) (l : List String) (x : String),
      x ∈ ts.foldl insertKey l ↔ x ∈ l ∨ x ∈ ts
  | [], l, x => by simp
  | t :: ts, l, x => by
    rw [List.foldl_cons, foldlInsert_mem ts _ x, insertKey_mem_iff]
    simp only [List.mem_cons]
    tauto

/-! ### Helper lemmas about string membership under trim/lower -/

theorem mem_dropWhile_of_not {p : Char → Bool} {c : Char} :
    ∀ {l : List Char}, p c = false → c ∈ l → c ∈ l.dropWhile p
  | [], _, h => absurd h (by simp)
  | a :: t, hc, h => by
    rw [List.dropWhile_cons]
    split_ifs with ha
    · rcases List.mem_cons.mp h with rfl | h'
      · rw [hc] at ha; exact absurd ha (by simp)
      · exact mem_dropWhile_of_not hc h'
    · exact h

theorem mem_jsTrimL_of_not_ws {c : Char} {l : List Char}
    (hc : isWsC c = false) (h : c ∈ l) : c ∈ jsTrimL l := by
  unfold jsTrimL
  rw [List.mem_reverse]
  exact mem_dropWhile_of_not hc (List.mem_reverse.mpr (mem_dropWhile_of_not hc h))

theorem normalizeFilterValue_pipe_ne (a b : String) :
    normalizeFilterValue (a ++ "|" ++ b) ≠ "" := by
  unfold normalizeFilterValue trimLower
  intro h
  have h2 : jsLowerL (jsTrimL (a ++ "|" ++ b).toList) = [] := by
    have := congrArg String.toList h
    simpa using this
  have hpipe : '|' ∈ (a ++ "|" ++ b).toList := by
    rw [show (a ++ "|" ++ b).toList = (a.toList ++ ['|']) ++ b.toList from rfl]
    simp
  have h3 : '|' ∈ jsTrimL (a ++ "|" ++ b).toList :=
    mem_jsTrimL_of_not_ws (by decide) hpipe
  have h4 : lowerC '|' ∈ jsLowerL (jsTrimL (a ++ "|" ++ b).toList) :=
    List.mem_map_of_mem lowerC h3
  rw [h2] at h4
  exact absurd h4 (by simp)

theorem str_pipe_ne (a b : String) : a ++ "|" ++ b ≠ "" := by
  intro h
  have hp : '|' ∈ (a ++ "|" ++ b).toList := by
    rw [show (a ++ "|" ++ b).toList = (a.toList ++ ['|']) ++ b.toList from rfl]
    simp
  rw [h] at hp
  exact absurd hp (by simp)

/-! ### Stage lemmas for the `aggregateItems` merge body -/

theorem mergeLists_spec (e : Entry) (row : Row) :
    (mergeLists e row).base = e.base
    ∧ (mergeLists e row).FilterKeys = e.FilterKeys
    ∧ (mergeLists e row).UsageEntries = e.UsageEntries
    ∧ (mergeLists e row)._usageSet = e._usageSet
    ∧ (mergeLists e row)._tokenSet = e._tokenSet
    ∧ e.CategoryList <+: (mergeLists e row).CategoryList
    ∧ e.LocationList <+: (mergeLists e row).LocationList
    ∧ e.VendorList <+: (mergeLists e row).VendorList
    ∧ e.SourceList <+: (mergeLists e row).SourceList :=
  ⟨rfl, rfl, rfl, rfl, rfl, pushUnique_grows _ _, pushUnique_grows _ _,
    pushUnique_grows _ _, pushUnique_grows _ _⟩

theorem mergeFilterKeys_spec (e : Entry) (row : Row) :
    (mergeFilterKeys e row).base = e.base
    ∧ (mergeFilterKeys e row).CategoryList = e.CategoryList
    ∧ (mergeFilterKeys e row).LocationList = e.LocationList
    ∧ (mergeFilterKeys e row).VendorList = e.VendorList
    ∧ (mergeFilterKeys e row).SourceList = e.SourceList
    ∧ (mergeFilterKeys e row).UsageEntries = e.UsageEntries
    ∧ (mergeFilterKeys e row)._usageSet = e._usageSet
    ∧ (mergeFilterKeys e row)._tokenSet = e._tokenSet
    ∧ e.FilterKeys <+: (mergeFilterKeys e row).FilterKeys
    ∧ stationKey row ∈ (mergeFilterKeys e row).FilterKeys := by
  refine ⟨rfl, rfl, rfl, rfl, rfl, rfl, rfl, rfl, ?_, ?_⟩
  · simp only [mergeFilterKeys]
    refine List.IsPrefix.trans ?_ (addFilterKey_grows _ _ _)
    refine List.IsPrefix.trans ?_ (addFilterKey_grows _ _ _)
    refine List.IsPrefix.trans ?_ (addFilterKey_grows _ _ _)
    refine List.IsPrefix.trans ?_ (addFilterKey_grows _ _ _)
    refine List.IsPrefix.trans ?_ (addFilterKeyList_grows _ _ _)
    refine List.IsPrefix.trans ?_ (addFilterKey_grows _ _ _)
    refine List.IsPrefix.trans ?_ (addFilterKey_grows _ _ _)
    refine List.IsPrefix.trans ?_ (addFilterKey_grows _ _ _)
    refine List.IsPrefix.trans ?_ (addFilterKey_grows _ _ _)
    refine List.IsPrefix.trans ?_ (addFilterKey_grows _ _ _)
    refine List.IsPrefix.trans ?_ (addFilterKey_grows _ _ _)
    refine List.IsPrefix.trans ?_ (addFilterKey_grows _ _ _)
    exact List.prefix_refl _
  · simp only [mergeFilterKeys]
    refine List.IsPrefix.subset (addFilterKey_grows _ _ _) ?_
    refine List.IsPrefix.subset (addFilterKey_grows _ _ _) ?_
    refine List.IsPrefix.subset (addFilterKey_grows _ _ _) ?_
    refine List.IsPrefix.subset (addFilterKey_grows _ _ _) ?_
    refine List.IsPrefix.subset (addFilterKeyList_grows _ _ _) ?_
    refine List.IsPrefix.subset (addFilterKey_grows _ _ _) ?_
    refine List.IsPrefix.subset (addFilterKey_grows _ _ _) ?_
    unfold addFilterKey
    rw [if_neg (str_pipe_ne row.Station row.Tier),
      if_neg (normalizeFilterValue_pipe_ne row.Station row.Tier)]
    exact (insertKey_mem_iff _ _ _).mpr (Or.inr rfl)

theorem mergeMeta_spec (jm : List (String × Meta)) (e : Entry) :
    ((mergeMeta jm e).base.Name = e.base.Name
      ∧ (mergeMeta jm e).base.QuantityRaw = e.base.QuantityRaw
      ∧ (mergeMeta jm e).base.Quantity = e.base.Quantity
      ∧ (mergeMeta jm e).base._normName = e.base._normName
      ∧ (mergeMeta jm e).base.LocationType = e.base.LocationType
      ∧ (mergeMeta jm e).base.Category = e.base.Category
      ∧ (mergeMeta jm e).base.Vendor = e.base.Vendor
      ∧ (mergeMeta jm e).base.Source = e.base.Source
      ∧ (mergeMeta jm e).base.Station = e.base.Station
      ∧ (mergeMeta jm e).base.Tier = e.base.Tier
      ∧ (mergeMeta jm e).base.ArcType = e.base.ArcType
      ∧ (mergeMeta jm e).base.MetaType = e.base.MetaType
      ∧ (mergeMeta jm e).base.ArcFoundIn = e.base.ArcFoundIn
      ∧ (mergeMeta jm e).base.MetaWorkbench = e.base.MetaWorkbench
      ∧ (mergeMeta jm e).base.ArcValue = e.base.ArcValue
      ∧ (mergeMeta jm e).base.MetaID = e.base.MetaID
      ∧ (mergeMeta jm e).base.ArcID = e.base.ArcID
      ∧ (mergeMeta jm e).base.ItemID = e.base.ItemID
      ∧ (mergeMeta jm e).base.extra = e.base.extra)
    ∧ (mergeMeta jm e).base.ArcDescription = e.base.ArcDescription
    ∧ (mergeMeta jm e).base.MetaDescription = e.base.MetaDescription
    ∧ (mergeMeta jm e).base.ArcRarity = e.base.ArcRarity
    ∧ (mergeMeta jm e).base.MetaRarity = e.base.MetaRarity
    ∧ (e.base.IconURL = "" ∨ (mergeMeta jm e).base.IconURL = e.base.IconURL)
    ∧ (e.base.ArcWeightKg = "" ∨ (mergeMeta jm e).base.ArcWeightKg = e.base.ArcWeightKg)
    ∧ (e.base.ArcStackSize = "" ∨ (mergeMeta jm e).base.ArcStackSize = e.base.ArcStackSize)
    ∧ (mergeMeta jm e).CategoryList = e.CategoryList
    ∧ (mergeMeta jm e).LocationList = e.LocationList
    ∧ (mergeMeta jm e).VendorList = e.VendorList
    ∧ (mergeMeta jm e).SourceList = e.SourceList
    ∧ (mergeMeta jm e).UsageEntries = e.UsageEntries
    ∧ (mergeMeta jm e)._usageSet = e._usageSet
    ∧ (mergeMeta jm e).FilterKeys = e.FilterKeys
    ∧ (mergeMeta jm e)._tokenSet = e._tokenSet := by
  unfold mergeMeta
  split
  · simp
  · rename_i m hm
    by_cases h1 : e.base.IconURL = "" ∧ m.icon ≠ "" <;>
      by_cases h2 : e.base.ArcWeightKg = "" ∧ m.weight ≠ "" <;>
        by_cases h3 : e.base.ArcStackSize = "" ∧ m.stackSize ≠ "" <;>
          simp [h1, h2, h3]

theorem iconFallback_spec (e : Entry) (row : Row) :
    ((iconFallback e row).base.Name = e.base.Name
      ∧ (iconFallback e row).base.QuantityRaw = e.base.QuantityRaw
      ∧ (iconFallback e row).base.Quantity = e.base.Quantity
      ∧ (iconFallback e row).base._normName = e.base._normName
      ∧ (iconFallback e row).base.LocationType = e.base.LocationType
      ∧ (iconFallback e row).base.Category = e.base.Category
      ∧ (iconFallback e row).base.Vendor = e.base.Vendor
      ∧ (iconFallback e row).base.Source = e.base.Source
      ∧ (iconFallback e row).base.Station = e.base.Station
      ∧ (iconFallback e row).base.Tier = e.base.Tier
      ∧ (iconFallback e row).base.ArcType = e.base.ArcType
      ∧ (iconFallback e row).base.MetaType = e.base.MetaType
      ∧ (iconFallback e row).base.ArcFoundIn = e.base.ArcFoundIn
      ∧ (iconFallback e row).base.MetaWorkbench = e.base.MetaWorkbench
      ∧ (iconFallback e row).base.ArcValue = e.base.ArcValue
      ∧ (iconFallback e row).base.MetaID = e.base.MetaID
      ∧ (iconFallback e row).base.ArcID = e.base.ArcID
      ∧ (iconFallback e row).base.ItemID = e.base.ItemID
      ∧ (iconFallback e row).base.extra = e.base.extra)
    ∧ (iconFallback e row).base.ArcDescription = e.base.ArcDescription
    ∧ (iconFallback e row).base.MetaDescription = e.base.MetaDescription
    ∧ (iconFallback e row).base.ArcRarity = e.base.ArcRarity
    ∧ (iconFallback e row).base.MetaRarity = e.base.MetaRarity
    ∧ (e.base.IconURL = "" ∨ (iconFallback e row).base.IconURL = e.base.IconURL)
    ∧ (iconFallback e row).base.ArcWeightKg = e.base.ArcWeightKg
    ∧ (iconFallback e row).base.ArcStackSize = e.base.ArcStackSize
    ∧ (iconFallback e row).CategoryList = e.CategoryList
    ∧ (iconFallback e row).LocationList = e.LocationList
    ∧ (iconFallback e row).VendorList = e.VendorList
    ∧ (iconFallback e row).SourceList = e.SourceList
    ∧ (iconFallback e row).UsageEntries = e.UsageEntries
    ∧ (iconFallback e row)._usageSet = e._usageSet
    ∧ (iconFallback e row).FilterKeys = e.FilterKeys
    ∧ (iconFallback e row)._tokenSet = e._tokenSet := by
  unfold iconFallback
  by_cases h1 : e.base.IconURL = "" <;>
    by_cases h2 : iconFallbackId row ≠ "" <;>
      simp [h1, h2]

theorem mergeUsage_spec (e : Entry) (row : Row) :
    (mergeUsage e row).base = e.base
    ∧ (mergeUsage e row).CategoryList = e.CategoryList
    ∧ (mergeUsage e row).LocationList = e.LocationList
    ∧ (mergeUsage e row).VendorList = e.VendorList
    ∧ (mergeUsage e row).SourceList = e.SourceList
    ∧ (mergeUsage e row).FilterKeys = e.FilterKeys
    ∧ (mergeUsage e row)._tokenSet = e._tokenSet
    ∧ e.UsageEntries <+: (mergeUsage e row).UsageEntries
    ∧ ((mergeUsage e row).UsageEntries, (mergeUsage e row)._usageSet)
        = (if usageJoin (rowUsage row) ∈ e._usageSet
           then (e.UsageEntries, e._usageSet)
           else (e.UsageEntries ++ [rowUsage row],
                 e._usageSet ++ [usageJoin (rowUsage row)])) := by
  simp only [mergeUsage]
  split_ifs with h
  · exact ⟨rfl, rfl, rfl, rfl, rfl, rfl, rfl, List.prefix_refl _, rfl⟩
  · exact ⟨rfl, rfl, rfl, rfl, rfl, rfl, rfl, List.prefix_append _ _, rfl⟩

theorem mergeTokens_spec (e : Entry) (row : Row) :
    (mergeTokens e row).base = e.base
    ∧ (mergeTokens e row).CategoryList = e.CategoryList
    ∧ (mergeTokens e row).LocationList = e.LocationList
    ∧ (mergeTokens e row).VendorList = e.VendorList
    ∧ (mergeTokens e row).SourceList = e.SourceList
    ∧ (mergeTokens e row).FilterKeys = e.FilterKeys
    ∧ (mergeTokens e row).UsageEntries = e.UsageEntries
    ∧ (mergeTokens e row)._usageSet = e._usageSet
    ∧ e._tokenSet <+: (mergeTokens e row)._tokenSet
    ∧ (∀ x, x ∈ (mergeTokens e row)._tokenSet
        ↔ x ∈ e._tokenSet ∨ x ∈ tokenizeName row.Name) :=
  ⟨rfl, rfl, rfl, rfl, rfl, rfl, rfl, rfl, foldlInsert_grows _ _,
    fun x => foldlInsert_mem _ _ x⟩

theorem mergeDescs_spec (e : Entry) (row : Row) :
    ((mergeDescs e row).base.Name = e.base.Name
      ∧ (mergeDescs e row).base.QuantityRaw = e.base.QuantityRaw
      ∧ (mergeDescs e row).base.Quantity = e.base.Quantity
      ∧ (mergeDescs e row).base._normName = e.base._normName
      ∧ (mergeDescs e row).base.LocationType = e.base.LocationType
      ∧ (mergeDescs e row).base.Category = e.base.Category
      ∧ (mergeDescs e row).base.Vendor = e.base.Vendor
      ∧ (mergeDescs e row).base.Source = e.base.Source
      ∧ (mergeDescs e row).base.Station = e.base.Station
      ∧ (mergeDescs e row).base.Tier = e.base.Tier
      ∧ (mergeDescs e row).base.ArcType = e.base.ArcType
      ∧ (mergeDescs e row).base.MetaType = e.base.MetaType
      ∧ (mergeDescs e row).base.ArcFoundIn = e.base.ArcFoundIn
      ∧ (mergeDescs e row).base.MetaWorkbench = e.base.MetaWorkbench
      ∧ (mergeDescs e row).base.ArcValue = e.base.ArcValue
      ∧ (mergeDescs e row).base.MetaID = e.base.MetaID
      ∧ (mergeDescs e row).base.ArcID = e.base.ArcID
      ∧ (mergeDescs e row).base.ItemID = e.base.ItemID
      ∧ (mergeDescs e row).base.extra = e.base.extra)
    ∧ (mergeDescs e row).base.ArcDescription
        = (if e.base.ArcDescription = "" ∧ row.ArcDescription ≠ ""
           then row.ArcDescription else e.base.ArcDescription)
    ∧ (mergeDescs e row).base.MetaDescription
        = (if e.base.MetaDescription = "" ∧ row.MetaDescription ≠ ""
           then row.MetaDescription else e.base.MetaDescription)
    ∧ (mergeDescs e row).base.ArcRarity
        = (if e.base.ArcRarity = "" ∧ row.ArcRarity ≠ ""
           then row.ArcRarity else e.base.ArcRarity)
    ∧ (mergeDescs e row).base.MetaRarity
        = (if e.base.MetaRarity = "" ∧ row.MetaRarity ≠ ""
           then row.MetaRarity else e.base.MetaRarity)
    ∧ (mergeDescs e row).base.IconURL = e.base.IconURL
    ∧ (mergeDescs e row).base.ArcWeightKg = e.base.ArcWeightKg
    ∧ (mergeDescs e row).base.ArcStackSize = e.base.ArcStackSize
    ∧ (mergeDescs e row).CategoryList = e.CategoryList
    ∧ (mergeDescs e row).LocationList = e.LocationList
    ∧ (mergeDescs e row).VendorList = e.VendorList
    ∧ (mergeDescs e row).SourceList = e.SourceList
    ∧ (mergeDescs e row).UsageEntries = e.UsageEntries
    ∧ (mergeDescs e row)._usageSet = e._usageSet
    ∧ (mergeDescs e row).FilterKeys = e.FilterKeys
    ∧ (mergeDescs e row)._tokenSet = e._tokenSet := by
  unfold mergeDescs
  by_cases h1 : e.base.ArcDescription = "" ∧ row.ArcDescription ≠ "" <;>
    by_cases h2 : e.base.MetaDescription = "" ∧ row.MetaDescription ≠ "" <;>
      by_cases h3 : e.base.ArcRarity = "" ∧ row.ArcRarity ≠ "" <;>
        by_cases h4 : e.base.MetaRarity = "" ∧ row.MetaRarity ≠ "" <;>
          simp [h1, h2, h3, h4]

theorem mergeRow_spec (jm : List (String × Meta)) (e : Entry) (row : Row) :
    baseFrameEq (mergeRow jm e row).base e.base
    ∧ (mergeRow jm e row).base.ArcDescription
        = (if e.base.ArcDescription = "" ∧ row.ArcDescription ≠ ""
           then row.ArcDescription else e.base.ArcDescription)
    ∧ (mergeRow jm e row).base.MetaDescription
        = (if e.base.MetaDescription = "" ∧ row.MetaDescription ≠ ""
           then row.MetaDescription else e.base.MetaDescription)
    ∧ (mergeRow jm e row).base.ArcRarity
        = (if e.base.ArcRarity = "" ∧ row.ArcRarity ≠ ""
           then row.ArcRarity else e.base.ArcRarity)
    ∧ (mergeRow jm e row).base.MetaRarity
        = (if e.base.MetaRarity = "" ∧ row.MetaRarity ≠ ""
           then row.MetaRarity else e.base.MetaRarity)
    ∧ (e.base.IconURL = "" ∨ (mergeRow jm e row).base.IconURL = e.base.IconURL)
    ∧ (e.base.ArcWeightKg = "" ∨ (mergeRow jm e row).base.ArcWeightKg = e.base.ArcWeightKg)
    ∧ (e.base.ArcStackSize = "" ∨ (mergeRow jm e row).base.ArcStackSize = e.base.ArcStackSize)
    ∧ e.CategoryList <+: (mergeRow jm e row).CategoryList
    ∧ e.LocationList <+: (mergeRow jm e row).LocationList
    ∧ e.VendorList <+: (mergeRow jm e row).VendorList
    ∧ e.SourceList <+: (mergeRow jm e row).SourceList
    ∧ e.UsageEntries <+: (mergeRow jm e row).UsageEntries
    ∧ e.FilterKeys <+: (mergeRow jm e row).FilterKeys
    ∧ e._tokenSet <+: (mergeRow jm e row)._tokenSet
    ∧ stationKey row ∈ (mergeRow jm e row).FilterKeys
    ∧ ((mergeRow jm e row).UsageEntries, (mergeRow jm e row)._usageSet)
        = (if usageJoin (rowUsage row) ∈ e._usageSet
           then (e.UsageEntries, e._usageSet)
           else (e.UsageEntries ++ [rowUsage row],
                 e._usageSet ++ [usageJoin (rowUsage row)]))
    ∧ (∀ x, x ∈ (mergeRow jm e row)._tokenSet
        ↔ x ∈ e._tokenSet ∨ x ∈ tokenizeName row.Name) := by
  obtain ⟨hL_base, hL_fk, hL_use, hL_uset, hL_tok, hL_c, hL_l, hL_v, hL_s⟩ :=
    mergeLists_spec e row
  obtain ⟨hF_base, hF_c, hF_l, hF_v, hF_s, hF_use, hF_uset, hF_tok, hF_fk, hF_station⟩ :=
    mergeFilterKeys_spec (mergeLists e row) row
  obtain ⟨⟨hM1, hM2, hM3, hM4, hM5, hM6, hM7, hM8, hM9, hM10, hM11, hM12, hM13, hM14, hM15, hM16, hM17, hM18, hM19⟩, hM_ad, hM_md, hM_ar, hM_mr, hM_icon, hM_w, hM_st,
      hM_c, hM_l, hM_v, hM_s, hM_use, hM_uset, hM_fk, hM_tok⟩ :=
    mergeMeta_spec jm (mergeFilterKeys (mergeLists e row) row)
  obtain ⟨⟨hI1, hI2, hI3, hI4, hI5, hI6, hI7, hI8, hI9, hI10, hI11, hI12, hI13, hI14, hI15, hI16, hI17, hI18, hI19⟩, hI_ad, hI_md, hI_ar, hI_mr, hI_icon, hI_w, hI_st,
      hI_c, hI_l, hI_v, hI_s, hI_use, hI_uset, hI_fk, hI_tok⟩ :=
    iconFallback_spec (mergeMeta jm (mergeFilterKeys (mergeLists e row) row)) row
  obtain ⟨hU_base, hU_c, hU_l, hU_v, hU_s, hU_fk, hU_tok, hU_pref, hU_pair⟩ :=
    mergeUsage_spec (iconFallback (mergeMeta jm (mergeFilterKeys (mergeLists e row) row)) row) row
  obtain ⟨hT_base, hT_c, hT_l, hT_v, hT_s, hT_fk, hT_use, hT_uset, hT_pref, hT_mem⟩ :=
    mergeTokens_spec (mergeUsage (iconFallback (mergeMeta jm (mergeFilterKeys (mergeLists e row) row)) row) row) row
  obtain ⟨⟨hD1, hD2, hD3, hD4, hD5, hD6, hD7, hD8, hD9, hD10, hD11, hD12, hD13, hD14, hD15, hD16, hD17, hD18, hD19⟩, hD_ad, hD_md, hD_ar, hD_mr, hD_icon, hD_w, hD_st,
      hD_c, hD_l, hD_v, hD_s, hD_use, hD_uset, hD_fk, hD_tok⟩ :=
    mergeDescs_spec (mergeTokens (mergeUsage (iconFallback (mergeMeta jm (mergeFilterKeys (mergeLists e row) row)) row) row) row) row
  unfold mergeRow
  refine ⟨?_, ?_, ?_, ?_, ?_, ?_, ?_, ?_, ?_, ?_, ?_, ?_, ?_, ?_, ?_, ?_, ?_, ?_⟩
  · unfold baseFrameEq
    refine ⟨?_, ?_, ?_, ?_, ?_, ?_, ?_, ?_, ?_, ?_, ?_, ?_, ?_, ?_, ?_, ?_, ?_, ?_, ?_⟩
    · rw [hD1, hT_base, hU_base, hI1, hM1, hF_base, hL_base]
    · rw [hD2, hT_base, hU_base, hI2, hM2, hF_base, hL_base]
    · rw [hD3, hT_base, hU_base, hI3, hM3, hF_base, hL_base]
    · rw [hD4, hT_base, hU_base, hI4, hM4, hF_base, hL_base]
    · rw [hD5, hT_base, hU_base, hI5, hM5, hF_base, hL_base]
    · rw [hD6, hT_base, hU_base, hI6, hM6, hF_base, hL_base]
    · rw [hD7, hT_base, hU_base, hI7, hM7, hF_base, hL_base]
    · rw [hD8, hT_base, hU_base, hI8, hM8, hF_base, hL_base]
    · rw [hD9, hT_base, hU_base, hI9, hM9, hF_base, hL_base]
    · rw [hD10, hT_base, hU_base, hI10, hM10, hF_base, hL_base]
    · rw [hD11, hT_base, hU_base, hI11, hM11, hF_base, hL_base]
    · rw [hD12, hT_base, hU_base, hI12, hM12, hF_base, hL_base]
    · rw [hD13, hT_base, hU_base, hI13, hM13, hF_base, hL_base]
    · rw [hD14, hT_base, hU_base, hI14, hM14, hF_base, hL_base]
    · rw [hD15, hT_base, hU_base, hI15, hM15, hF_base, hL_base]
    · rw [hD16, hT_base, hU_base, hI16, hM16, hF_base, hL_base]
    · rw [hD17, hT_base, hU_base, hI17, hM17, hF_base, hL_base]
    · rw [hD18, hT_base, hU_base, hI18, hM18, hF_base, hL_base]
    · rw [hD19, hT_base, hU_base, hI19, hM19, hF_base, hL_base]
  · rw [hD_ad, hT_base, hU_base, hI_ad, hM_ad, hF_base, hL_base]
  · rw [hD_md, hT_base, hU_base, hI_md, hM_md, hF_base, hL_base]
  · rw [hD_ar, hT_base, hU_base, hI_ar, hM_ar, hF_base, hL_base]
  · rw [hD_mr, hT_base, hU_base, hI_mr, hM_mr, hF_base, hL_base]
  · rcases hM_icon with h | h
    · rw [hF_base, hL_base] at h
      exact Or.inl h
    · rcases hI_icon with h2 | h2
      · rw [h, hF_base, hL_base] at h2
        exact Or.inl h2
      · refine Or.inr ?_
        rw [hD_icon, hT_base, hU_base, h2, h, hF_base, hL_base]
  · rcases hM_w with h | h
    · rw [hF_base, hL_base] at h
      exact Or.inl h
    · refine Or.inr ?_
      rw [hD_w, hT_base, hU_base, hI_w, h, hF_base, hL_base]
  · rcases hM_st with h | h
    · rw [hF_base, hL_base] at h
      exact Or.inl h
    · refine Or.inr ?_
      rw [hD_st, hT_base, hU_base, hI_st, h, hF_base, hL_base]
  · rw [hD_c, hT_c, hU_c, hI_c, hM_c, hF_c]
    exact hL_c
  · rw [hD_l, hT_l, hU_l, hI_l, hM_l, hF_l]
    exact hL_l
  · rw [hD_v, hT_v, hU_v, hI_v, hM_v, hF_v]
    exact hL_v
  · rw [hD_s, hT_s, hU_s, hI_s, hM_s, hF_s]
    exact hL_s
  · rw [hD_use, hT_use]
    have h4e : (iconFallback (mergeMeta jm (mergeFilterKeys (mergeLists e row) row)) row).UsageEntries
        = e.UsageEntries := by
      rw [hI_use, hM_use, hF_use, hL_use]
    exact h4e ▸ hU_pref
  · rw [hD_fk, hT_fk, hU_fk, hI_fk, hM_fk, ← hL_fk]
    exact hF_fk
  · rw [hD_tok]
    have h5e : (mergeUsage (iconFallback (mergeMeta jm (mergeFilterKeys (mergeLists e row) row)) row) row)._tokenSet
        = e._tokenSet := by
      rw [hU_tok, hI_tok, hM_tok, hF_tok, hL_tok]
    exact h5e ▸ hT_pref
  · rw [hD_fk, hT_fk, hU_fk, hI_fk, hM_fk]
    exact hF_station
  · rw [hD_use, hD_uset, hT_use, hT_uset]
    have h4ue : (iconFallback (mergeMeta jm (mergeFilterKeys (mergeLists e row) row)) row).UsageEntries
        = e.UsageEntries := by
      rw [hI_use, hM_use, hF_use, hL_use]
    have h4us : (iconFallback (mergeMeta jm (mergeFilterKeys (mergeLists e row) row)) row)._usageSet
        = e._usageSet := by
      rw [hI_uset, hM_uset, hF_uset, hL_uset]
    rw [h4ue, h4us] at hU_pair
    exact hU_pair
  · intro x
    rw [hD_tok, hT_mem x]
    have h5e : (mergeUsage (iconFallback (mergeMeta jm (mergeFilterKeys (mergeLists e row) row)) row) row)._tokenSet
        = e._tokenSet := by
      rw [hU_tok, hI_tok, hM_tok, hF_tok, hL_tok]
    rw [h5e]

/-- C9: after a grouped record is seeded, merging any further contributing
record leaves every scalar field of the record unchanged (the `baseFrameEq`
fields) except the four description/rarity fields — each set to the row's
value only when currently empty — and `IconURL`, `ArcWeightKg`,
`ArcStackSize` — each changed only when currently empty; the list-valued
attributes, usage entries, filter keys and token set only grow (the old
value is a prefix of the new one). -/
theorem mergeRow_frame_c9 (jm : List (String × Meta)) (e : Entry) (row : Row) :
    baseFrameEq (mergeRow jm e row).base e.base
    ∧ (mergeRow jm e row).base.ArcDescription
        = (if e.base.ArcDescription = "" ∧ row.ArcDescription ≠ ""
           then row.ArcDescription else e.base.ArcDescription)
    ∧ (mergeRow jm e row).base.MetaDescription
        = (if e.base.MetaDescription = "" ∧ row.MetaDescription ≠ ""
           then row.MetaDescription else e.base.MetaDescription)
    ∧ (mergeRow jm e row).base.ArcRarity
        = (if e.base.ArcRarity = "" ∧ row.ArcRarity ≠ ""
           then row.ArcRarity else e.base.ArcRarity)
    ∧ (mergeRow jm e row).base.MetaRarity
        = (if e.base.MetaRarity = "" ∧ row.MetaRarity ≠ ""
           then row.MetaRarity else e.base.MetaRarity)
    ∧ (e.base.IconURL = "" ∨ (mergeRow jm e row).base.IconURL = e.base.IconURL)
    ∧ (e.base.ArcWeightKg = "" ∨ (mergeRow jm e row).base.ArcWeightKg = e.base.ArcWeightKg)
    ∧ (e.base.ArcStackSize = "" ∨ (mergeRow jm e row).base.ArcStackSize = e.base.ArcStackSize)
    ∧ e.CategoryList <+: (mergeRow jm e row).CategoryList
    ∧ e.LocationList <+: (mergeRow jm e row).LocationList
    ∧ e.VendorList <+: (mergeRow jm e row).VendorList
    ∧ e.SourceList <+: (mergeRow jm e row).SourceList
    ∧ e.UsageEntries <+: (mergeRow jm e row).UsageEntries
    ∧ e.FilterKeys <+: (mergeRow jm e row).FilterKeys
    ∧ e._tokenSet <+: (mergeRow jm e row)._tokenSet := by
  obtain ⟨h1, h2, h3, h4, h5, h6, h7, h8, h9, h10, h11, h12, h13, h14, h15, _, _, _⟩ :=
    mergeRow_spec jm e row
  exact ⟨h1, h2, h3, h4, h5, h6, h7, h8, h9, h10, h11, h12, h13, h14, h15⟩

/-! ### Dedup-by-key lemmas -/

theorem dedupByKeyF_append {α β : Type} [DecidableEq β] (f : α → β) :
    ∀ (l : List α) (seen : List β) (u : α),
      dedupByKeyF f (l ++ [u]) seen
        = dedupByKeyF f l seen
          ++ (if f u ∈ seen ∨ f u ∈ l.map f then [] else [u])
  | [], seen, u => by
    by_cases h : f u ∈ seen <;> simp [dedupByKeyF, h]
  | x :: xs, seen, u => by
    simp only [List.cons_append, List.append_eq, dedupByKeyF]
    by_cases h : f x ∈ seen
    · rw [if_pos h, if_pos h, dedupByKeyF_append f xs seen u]
      have hiff : (f u ∈ seen ∨ f u ∈ xs.map f)
          ↔ (f u ∈ seen ∨ f u ∈ (x :: xs).map f) := by
        simp only [List.map_cons, List.mem_cons]
        constructor
        · rintro (h1 | h1)
          · exact Or.inl h1
          · exact Or.inr (Or.inr h1)
        · rintro (h1 | h1 | h1)
          · exact Or.inl h1
          · exact Or.inl (h1 ▸ h)
          · exact Or.inr h1
      rw [if_congr hiff rfl rfl]
    · rw [if_neg h, if_neg h, dedupByKeyF_append f xs (f x :: seen) u]
      simp only [List.cons_append]
      have hiff : (f u ∈ f x :: seen ∨ f u ∈ xs.map f)
          ↔ (f u ∈ seen ∨ f u ∈ (x :: xs).map f) := by
        simp only [List.mem_cons, List.map_cons]
        tauto
      rw [if_congr hiff rfl rfl]

theorem dedupByKeyF_map_mem {α β : Type} [DecidableEq β] (f : α → β) :
    ∀ (l : List α) (seen : List β) (y : β),
      y ∈ (dedupByKeyF f l seen).map f ↔ y ∈ l.map f ∧ y ∉ seen
  | [], seen, y => by simp [dedupByKeyF]
  | x :: xs, seen, y => by
    simp only [dedupByKeyF]
    by_cases h : f x ∈ seen
    · rw [if_pos h, dedupByKeyF_map_mem f xs seen y]
      simp only [List.map_cons, List.mem_cons]
      constructor
      · rintro ⟨hy, hn⟩
        exact ⟨Or.inr hy, hn⟩
      · rintro ⟨hy | hy, hn⟩
        · exact absurd (hy ▸ h) hn
        · exact ⟨hy, hn⟩
    · rw [if_neg h]
      simp only [List.map_cons, List.mem_cons, dedupByKeyF_map_mem f xs (f x :: seen) y]
      constructor
      · rintro (rfl | ⟨hy, hn⟩)
        · exact ⟨Or.inl rfl, h⟩
        · exact ⟨Or.inr hy, fun hs => hn (Or.inr hs)⟩
      · rintro ⟨hy2, hn⟩
        by_cases hyx : y = f x
        · exact Or.inl hyx
        · right
          rcases hy2 with rfl | hy2
          · exact absurd rfl hyx
          · refine ⟨hy2, fun hc => ?_⟩
            rcases hc with h2 | h2
            · exact hyx h2
            · exact hn h2

theorem mergeRow_normName (jm : List (String × Meta)) (e : Entry) (row : Row) :
    (mergeRow jm e row).base._normName = e.base._normName := by
  have h := (mergeRow_spec jm e row).1
  unfold baseFrameEq at h
  exact h.2.2.2.1

theorem mergeRow_fk_subset (jm : List (String × Meta)) (e : Entry) (row : Row) :
    e.FilterKeys ⊆ (mergeRow jm e row).FilterKeys :=
  ((mergeRow_spec jm e row).2.2.2.2.2.2.2.2.2.2.2.2.2.1).subset

theorem mergeRow_station (jm : List (String × Meta)) (e : Entry) (row : Row) :
    stationKey row ∈ (mergeRow jm e row).FilterKeys :=
  (mergeRow_spec jm e row).2.2.2.2.2.2.2.2.2.2.2.2.2.2.2.1

theorem mergeRow_pair (jm : List (String × Meta)) (e : Entry) (row : Row) :
    ((mergeRow jm e row).UsageEntries, (mergeRow jm e row)._usageSet)
      = (if usageJoin (rowUsage row) ∈ e._usageSet
         then (e.UsageEntries, e._usageSet)
         else (e.UsageEntries ++ [rowUsage row],
               e._usageSet ++ [usageJoin (rowUsage row)])) :=
  (mergeRow_spec jm e row).2.2.2.2.2.2.2.2.2.2.2.2.2.2.2.2.1

theorem mergeRow_tokens (jm : List (String × Meta)) (e : Entry) (row : Row) :
    ∀ x, x ∈ (mergeRow jm e row)._tokenSet
      ↔ x ∈ e._tokenSet ∨ x ∈ tokenizeName row.Name :=
  (mergeRow_spec jm e row).2.2.2.2.2.2.2.2.2.2.2.2.2.2.2.2.2

theorem mergeRow_usage_inv {jm : List (String × Meta)} {e : Entry} {row : Row}
    (hset : e._usageSet = e.UsageEntries.map usageJoin) :
    (mergeRow jm e row)._usageSet = (mergeRow jm e row).UsageEntries.map usageJoin := by
  have hp := mergeRow_pair jm e row
  split_ifs at hp with h
  · rw [(Prod.mk.injEq _ _ _ _).mp hp |>.1, (Prod.mk.injEq _ _ _ _).mp hp |>.2]
    exact hset
  · rw [(Prod.mk.injEq _ _ _ _).mp hp |>.1, (Prod.mk.injEq _ _ _ _).mp hp |>.2]
    rw [List.map_append, hset]
    rfl

set_option maxHeartbeats 1600000 in
theorem aggStep_inv {done : List Row} {st : List Entry} {jm : List (String × Meta)}
    {row : Row} (h : aggInv done st) : aggInv (done ++ [row]) (aggStep jm st row) := by
  obtain ⟨hnodup, hcover, hent⟩ := h
  unfold aggStep
  split_ifs with hany
  · -- update an existing entry in place
    refine ⟨?_, ?_, ?_⟩
    · have hmapeq : (st.map (fun e =>
          if e.base._normName = row._normName then mergeRow jm e row else e)).map
            (fun e => e.base._normName) = st.map (fun e => e.base._normName) := by
        rw [List.map_map]
        apply List.map_congr_left
        intro e _
        by_cases hn : e.base._normName = row._normName
        · simp only [Function.comp_apply, if_pos hn, mergeRow_normName]
        · simp only [Function.comp_apply, if_neg hn]
      rw [hmapeq]
      exact hnodup
    · intro d hd
      rcases List.mem_append.mp hd with hd | hd
      · obtain ⟨e, he, hname, hkey⟩ := hcover d hd
        refine ⟨(fun e => if e.base._normName = row._normName then mergeRow jm e row else e) e,
          List.mem_map_of_mem _ he, ?_, ?_⟩
        · by_cases hn : e.base._normName = row._normName
          · simp only [if_pos hn, mergeRow_normName]; exact hname
          · simp only [if_neg hn]; exact hname
        · by_cases hn : e.base._normName = row._normName
          · simp only [if_pos hn]
            exact mergeRow_fk_subset jm e row hkey
          · simp only [if_neg hn]; exact hkey
      · have hd' : d = row := List.mem_singleton.mp hd
        rw [hd']
        obtain ⟨e, he, hnb⟩ := List.any_eq_true.mp hany
        have hn : e.base._normName = row._normName := by
          simpa using hnb
        refine ⟨mergeRow jm e row, List.mem_map.mpr ⟨e, he, by rw [if_pos hn]⟩, ?_, ?_⟩
        · rw [mergeRow_normName]; exact hn
        · exact mergeRow_station jm e row
    · intro e' he'
      rcases List.mem_map.mp he' with ⟨e, he, rfl⟩
      obtain ⟨hset, hue, htok⟩ := hent e he
      by_cases hn : e.base._normName = row._normName
      · simp only [if_pos hn]
        have hnn : (mergeRow jm e row).base._normName = e.base._normName :=
          mergeRow_normName jm e row
        have hcontrib : (done ++ [row]).filter
            (fun r => r._normName = (mergeRow jm e row).base._normName)
            = done.filter (fun r => r._normName = e.base._normName) ++ [row] := by
          rw [List.filter_append, hnn]
          congr 1
          simp [hn.symm]
        have hp := mergeRow_pair jm e row
        have hkey_iff : (usageJoin (rowUsage row) ∈ e._usageSet)
            ↔ usageJoin (rowUsage row) ∈
              ((done.filter (fun r => r._normName = e.base._normName)).map rowUsage).map
                usageJoin := by
          rw [hset, hue, dedupByKeyF_map_mem]
          simp
        refine ⟨mergeRow_usage_inv hset, ?_, ?_⟩
        · rw [hcontrib, List.map_append]
          rw [show ([row].map rowUsage) = [rowUsage row] from rfl]
          rw [dedupByKeyF_append]
          split_ifs at hp with h2
          · rw [(Prod.mk.injEq _ _ _ _).mp hp |>.1, hue]
            rw [if_pos (Or.inr (hkey_iff.mp h2))]
            simp
          · have hneg : ¬ (usageJoin (rowUsage row) ∈ ([] : List String) ∨
                usageJoin (rowUsage row) ∈
                  ((done.filter (fun r => r._normName = e.base._normName)).map
                    rowUsage).map usageJoin) := by
              rintro (h3 | h3)
              · exact absurd h3 (by simp)
              · exact h2 (hkey_iff.mpr h3)
            rw [(Prod.mk.injEq _ _ _ _).mp hp |>.1, hue]
            rw [if_neg hneg]
        · intro t ht
          rcases (mergeRow_tokens jm e row t).mp ht with ht2 | ht2
          · obtain ⟨r, hr, hrn, hrt⟩ := htok t ht2
            exact ⟨r, List.mem_append_left _ hr, by rw [mergeRow_normName]; exact hrn, hrt⟩
          · exact ⟨row, List.mem_append_right _ (by simp), by
              rw [mergeRow_normName]; exact hn.symm, ht2⟩
      · simp only [if_neg hn]
        refine ⟨hset, ?_, ?_⟩
        · rw [List.filter_append]
          have hnil : ([row].filter (fun r => r._normName = e.base._normName)) = [] := by
            simp only [List.filter_cons, List.filter_nil]
            rw [if_neg (by simpa using fun h => hn h.symm)]
          rw [hnil, List.append_nil]
          exact hue
        · intro t ht
          obtain ⟨r, hr, hrn, hrt⟩ := htok t ht
          exact ⟨r, List.mem_append_left _ hr, hrn, hrt⟩
  · -- append a new entry
    have hnew : (mergeRow jm (seedEntry row) row).base._normName = row._normName :=
      mergeRow_normName jm (seedEntry row) row
    have hnotin : ∀ e ∈ st, ¬ e.base._normName = row._normName := by
      intro e he hn
      exact hany (List.any_eq_true.mpr ⟨e, he, by simpa using hn⟩)
    refine ⟨?_, ?_, ?_⟩
    · rw [List.map_append]
      rw [show ([mergeRow jm (seedEntry row) row].map (fun e => e.base._normName))
          = [row._normName] by simp [hnew]]
      rw [List.nodup_append]
      refine ⟨hnodup, List.nodup_singleton _, ?_⟩
      intro a ha hb
      rcases List.mem_singleton.mp hb with rfl
      rcases List.mem_map.mp ha with ⟨e, he, hne⟩
      exact hnotin e he hne
    · intro d hd
      rcases List.mem_append.mp hd with hd | hd
      · obtain ⟨e, he, hname, hkey⟩ := hcover d hd
        exact ⟨e, List.mem_append_left _ he, hname, hkey⟩
      · have hd' : d = row := List.mem_singleton.mp hd
        rw [hd']
        exact ⟨mergeRow jm (seedEntry row) row, List.mem_append_right _ (by simp),
          hnew, mergeRow_station jm (seedEntry row) row⟩
    · intro e' he'
      rcases List.mem_append.mp he' with he' | he'
      · obtain ⟨hset, hue, htok⟩ := hent e' he'
        refine ⟨hset, ?_, ?_⟩
        · rw [List.filter_append]
          have hnil : ([row].filter (fun r => r._normName = e'.base._normName)) = [] := by
            simp only [List.filter_cons, List.filter_nil]
            rw [if_neg (by simpa using fun h => hnotin e' he' h.symm)]
          rw [hnil, List.append_nil]
          exact hue
        · intro t ht
          obtain ⟨r, hr, hrn, hrt⟩ := htok t ht
          exact ⟨r, List.mem_append_left _ hr, hrn, hrt⟩
      · rcases List.mem_singleton.mp he' with rfl
        have hdone_nil : done.filter (fun r => r._normName = row._normName) = [] := by
          rw [List.filter_eq_nil_iff]
          intro d hd hdn
          obtain ⟨e, he, hname, _⟩ := hcover d hd
          exact hnotin e he (by rw [hname]; exact (by simpa using hdn))
        have hcontrib : (done ++ [row]).filter
            (fun r => r._normName = (mergeRow jm (seedEntry row) row).base._normName)
            = [row] := by
          rw [hnew, List.filter_append, hdone_nil]
          simp
        have hp := mergeRow_pair jm (seedEntry row) row
        rw [if_neg (by simp [seedEntry])] at hp
        have hue' : (mergeRow jm (seedEntry row) row).UsageEntries = [rowUsage row] := by
          have := (Prod.mk.injEq _ _ _ _).mp hp |>.1
          simpa [seedEntry] using this
        have hus' : (mergeRow jm (seedEntry row) row)._usageSet
            = [usageJoin (rowUsage row)] := by
          have := (Prod.mk.injEq _ _ _ _).mp hp |>.2
          simpa [seedEntry] using this
        refine ⟨?_, ?_, ?_⟩
        · rw [hue', hus']
          rfl
        · rw [hcontrib, hue']
          simp [dedupByKeyF]
        · intro t ht
          rcases (mergeRow_tokens jm (seedEntry row) row t).mp ht with ht2 | ht2
          · exact absurd ht2 (by simp [seedEntry])
          · exact ⟨row, List.mem_append_right _ (by simp), by rw [hnew], ht2⟩

/-- The aggregation invariant is preserved along the whole fold. -/
theorem aggInv_foldl (jm : List (String × Meta)) :
    ∀ (rows done : List Row) (st : List Entry), aggInv done st →
      aggInv (done ++ rows) (rows.foldl (aggStep jm) st)
  | [], done, st, h => by simpa using h
  | row :: rows, done, st, h => by
    have h2 := aggInv_foldl jm rows (done ++ [row]) (aggStep jm st row)
      (aggStep_inv h)
    simpa using h2

/-- The aggregation invariant holds of the finished `aggregateItems` run. -/
theorem aggregateItems_inv (rows : List Row) (jm : List (String × Meta)) :
    aggInv rows (aggregateItems rows jm) := by
  have h2 := aggInv_foldl jm rows [] [] ⟨by simp, by simp, by simp⟩
  simpa [aggregateItems] using h2

/-- C10: every contributing row's grouped record carries the station filter
key built from the `"|"`-joined `Station`/`Tier` pair; in particular a row
whose `Station` and `Tier` are both empty still contributes the literal key
`"station:|"`, since the joined composite `"|"` is non-empty and so passes
`addFilterKey`'s empty-value guard. -/
theorem aggregate_station_c10 (rows : List Row) (jm : List (String × Meta))
    (row : Row) (hrow : row ∈ rows) :
    ∃ e ∈ aggregateItems rows jm, e.base._normName = row._normName ∧
      ("station:" ++ normalizeFilterValue (row.Station ++ "|" ++ row.Tier))
        ∈ e.FilterKeys ∧
      (row.Station = "" → row.Tier = "" → "station:|" ∈ e.FilterKeys) := by
  obtain ⟨_, hcover, _⟩ := aggregateItems_inv rows jm
  obtain ⟨e, he, hn, hk⟩ := hcover row hrow
  refine ⟨e, he, hn, hk, ?_⟩
  intro hs ht
  have hsk : stationKey row = "station:|" := by
    unfold stationKey
    rw [hs, ht]
    decide
  rw [hsk] at hk
  exact hk

/-- C10 witness: on the one-row dataset `[c10Row]` (empty station and tier)
the grouped record indeed carries `"station:|"`. -/
theorem aggregate_station_c10_witness :
    (c10Row ∈ [c10Row]) ∧
    ∃ e ∈ aggregateItems [c10Row] [], e.base._normName = c10Row._normName ∧
      ("station:" ++ normalizeFilterValue (c10Row.Station ++ "|" ++ c10Row.Tier))
        ∈ e.FilterKeys ∧
      (c10Row.Station = "" → c10Row.Tier = "" → "station:|" ∈ e.FilterKeys) :=
  ⟨List.mem_singleton_self _,
    aggregate_station_c10 [c10Row] [] c10Row (List.mem_singleton_self _)⟩

/-- C5 counterexample: the rows `c5RowA` (Station `"a"`, Tier `"b|1"`) and
`c5RowB` (Station `"a|b"`, Tier `"1"`) contribute field-wise *different*
usage entries whose `"|"`-joined composite keys nevertheless collide, so
aggregation drops the second entry — refuting "entries whose composite
identities differ field-wise are both kept". -/
theorem aggregate_usage_c5_counterexample :
    rowUsage c5RowA ≠ rowUsage c5RowB ∧
    usageJoin (rowUsage c5RowA) = usageJoin (rowUsage c5RowB) ∧
    (aggregateItems [c5RowA, c5RowB] []).map (fun e => e.UsageEntries)
      = [[rowUsage c5RowA]] := by decide

/-- C5 amended: a usage entry is appended iff no earlier contributing record
of the same normalized name produced a usage entry with an equal
`"|"`-joined composite key string (join of station, tier, quantity, source,
questName) — i.e. the usage entries of a grouped record are exactly the
join-key deduplication of the usages of its contributing rows, and the
recorded key set mirrors them. -/
theorem aggregate_usage_c5_amended (rows : List Row) (jm : List (String × Meta))
    (e : Entry) (he : e ∈ aggregateItems rows jm) :
    e._usageSet = e.UsageEntries.map usageJoin ∧
    e.UsageEntries = dedupByKeyF usageJoin
      ((rows.filter (fun r => r._normName = e.base._normName)).map rowUsage) [] := by
  obtain ⟨_, _, hent⟩ := aggregateItems_inv rows jm
  exact ⟨(hent e he).1, (hent e he).2.1⟩

/-- C5 witness: the amended dedup law instantiated on the colliding two-row
dataset. -/
theorem aggregate_usage_c5_amended_witness :
    ((aggregateItems [c5RowA, c5RowB] []).headI
        ∈ aggregateItems [c5RowA, c5RowB] []) ∧
    ((aggregateItems [c5RowA, c5RowB] []).headI._usageSet
        = (aggregateItems [c5RowA, c5RowB] []).headI.UsageEntries.map usageJoin ∧
      (aggregateItems [c5RowA, c5RowB] []).headI.UsageEntries
        = dedupByKeyF usageJoin
            (([c5RowA, c5RowB].filter (fun r => r._normName
              = (aggregateItems [c5RowA, c5RowB] []).headI.base._normName)).map
                rowUsage) []) :=
  ⟨by decide, aggregate_usage_c5_amended [c5RowA, c5RowB] [] _ (by decide)⟩

/-! ### String-normalization fixed points and token lemmas -/
theorem dropWhile_eq_self_of_head {p : Char → Bool} {l : List Char}
    (h : ∀ c, l.head? = some c → p c = false) : l.dropWhile p = l := by
  cases l with
  | nil => rfl
  | cons a t =>
    rw [List.dropWhile_cons, h a rfl]
    simp

theorem head?_dropWhile_not (p : Char → Bool) :
    ∀ {l : List Char} {c : Char}, (l.dropWhile p).head? = some c → p c = false
  | [], c => by simp
  | a :: t, c => by
    rw [List.dropWhile_cons]
    by_cases hpa : p a = true
    · rw [if_pos hpa]
      exact head?_dropWhile_not p
    · rw [if_neg hpa]
      intro h
      obtain rfl : a = c := by simpa using h
      simpa using hpa

theorem getLast?_dropWhile (p : Char → Bool) :
    ∀ {l : List Char}, l.dropWhile p ≠ [] → (l.dropWhile p).getLast? = l.getLast?
  | [], h => by simp at h
  | a :: t, h => by
    rw [List.dropWhile_cons] at h ⊢
    by_cases hpa : p a = true
    · rw [if_pos hpa] at h ⊢
      have ht : t ≠ [] := by
        intro he
        rw [he] at h
        simp at h
      rw [getLast?_dropWhile p h]
      cases t with
      | nil => exact absurd rfl ht
      | cons b u => rw [List.getLast?_cons_cons]
    · rw [if_neg hpa]

theorem jsTrimL_head {l : List Char} {c : Char}
    (h : (jsTrimL l).head? = some c) : isWsC c = false := by
  unfold jsTrimL at h
  rw [List.head?_reverse] at h
  have hne : ((l.dropWhile isWsC).reverse).dropWhile isWsC ≠ [] := by
    intro he
    rw [he] at h
    simp at h
  rw [getLast?_dropWhile _ hne, List.getLast?_reverse] at h
  exact head?_dropWhile_not _ h

theorem jsTrimL_last {l : List Char} {c : Char}
    (h : (jsTrimL l).getLast? = some c) : isWsC c = false := by
  unfold jsTrimL at h
  rw [List.getLast?_reverse] at h
  exact head?_dropWhile_not _ h

theorem splitRunsAux_ne_nil (p : Char → Bool) :
    ∀ (l acc : List Char) (b : Bool), splitRunsAux p l acc b ≠ []
  | [], acc, b => by simp [splitRunsAux]
  | c :: rest, acc, b => by
    unfold splitRunsAux
    split_ifs
    · simp
    · exact splitRunsAux_ne_nil p rest [] false
    · exact splitRunsAux_ne_nil p rest (c :: acc) true

theorem splitRunsAux_all_sep (p : Char → Bool) :
    ∀ (l : List Char) (b : Bool), (∀ c ∈ l, p c = true) →
      ∀ t ∈ splitRunsAux p l [] b, t = []
  | [], b, h => by simp [splitRunsAux]
  | c :: rest, b, h => by
    unfold splitRunsAux
    rw [if_pos (h c (List.mem_cons_self c rest))]
    have hrest : ∀ c' ∈ rest, p c' = true :=
      fun c' hc' => h c' (List.mem_cons_of_mem c hc')
    split_ifs with hb
    · intro t ht
      rcases List.mem_cons.mp ht with rfl | ht2
      · simp
      · exact splitRunsAux_all_sep p rest false hrest t ht2
    · exact splitRunsAux_all_sep p rest false hrest

theorem splitRunsAux_no_empty (p : Char → Bool) :
    ∀ (l acc : List Char) (b : Bool),
      (∀ c, l.getLast? = some c → p c = false) →
      (b = true → (acc ≠ [] ∨ ∃ c, l.head? = some c ∧ p c = false)) →
      (b = false → l ≠ []) →
      ∀ t ∈ splitRunsAux p l acc b, t ≠ []
  | [], acc, b, hlast, hbt, hbf => by
    cases b with
    | false => exact absurd rfl (hbf rfl)
    | true =>
      have hacc : acc ≠ [] := by
        rcases hbt rfl with h | ⟨c, hc, _⟩
        · exact h
        · simp at hc
      intro t ht
      simp only [splitRunsAux, List.mem_singleton] at ht
      subst ht
      simpa using hacc
  | c :: rest, acc, b, hlast, hbt, hbf => by
    have hlast' : ∀ c', rest.getLast? = some c' → p c' = false := by
      intro c' hc'
      apply hlast
      cases rest with
      | nil => simp at hc'
      | cons r rs => rw [List.getLast?_cons_cons]; exact hc'
    unfold splitRunsAux
    by_cases hpc : p c = true
    · have hrest : rest ≠ [] := by
        intro he
        subst he
        have := hlast c (by simp)
        rw [hpc] at this
        exact Bool.noConfusion this
      rw [if_pos hpc]
      split_ifs with hb
      · intro t ht
        rcases List.mem_cons.mp ht with rfl | ht2
        · have hacc : acc ≠ [] := by
            rcases hbt hb with h | ⟨c', hc', hpc'⟩
            · exact h
            · obtain rfl : c' = c := by simpa using hc'.symm
              rw [hpc] at hpc'
              exact Bool.noConfusion hpc'
          simpa using hacc
        · exact splitRunsAux_no_empty p rest [] false hlast'
            (fun h => Bool.noConfusion h) (fun _ => hrest) t ht2
      · exact splitRunsAux_no_empty p rest [] false hlast'
          (fun h => Bool.noConfusion h) (fun _ => hrest)
    · rw [if_neg hpc]
      exact splitRunsAux_no_empty p rest (c :: acc) true hlast'
        (fun _ => Or.inl (List.cons_ne_nil c acc)) (fun h => Bool.noConfusion h)

theorem splitRuns_no_empty {p : Char → Bool} {l : List Char}
    (hne : l ≠ [])
    (hhead : ∀ c, l.head? = some c → p c = false)
    (hlast : ∀ c, l.getLast? = some c → p c = false) :
    ∀ t ∈ splitRuns p l, t ≠ [] := by
  apply splitRunsAux_no_empty p l [] true hlast
  · intro _
    refine Or.inr ?_
    cases l with
    | nil => exact absurd rfl hne
    | cons a t => exact ⟨a, rfl, hhead a rfl⟩
  · intro h
    exact Bool.noConfusion h

theorem jsTrimL_all_ws {l : List Char} (h : jsTrimL l = []) :
    ∀ c ∈ l, isWsC c = true := by
  unfold jsTrimL at h
  rw [List.reverse_eq_nil_iff, List.dropWhile_eq_nil_iff] at h
  have h2 : ∀ c ∈ l.dropWhile isWsC, isWsC c = true := by
    intro c hc
    exact h c (List.mem_reverse.mpr hc)
  intro c hc
  rw [← List.takeWhile_append_dropWhile isWsC l] at hc
  rcases List.mem_append.mp hc with h3 | h3
  · exact List.mem_takeWhile_imp h3
  · exact h2 c h3

theorem tokenizeName_eq_nil {s : String} (h : trimLower s = "") :
    tokenizeName s = [] := by
  have h1 : jsLowerL (jsTrimL s.toList) = [] := congrArg String.toList h
  have h2 : jsTrimL s.toList = [] := by
    have hlen := congrArg List.length h1
    simp only [jsLowerL, List.length_map, List.length_nil] at hlen
    exact List.eq_nil_of_length_eq_zero hlen
  have hws : ∀ c ∈ s.toList, isWsC c = true := jsTrimL_all_ws h2
  unfold tokenizeName
  rw [List.map_eq_nil_iff, List.filter_eq_nil_iff]
  intro t ht
  have hall : ∀ c ∈ jsLowerL s.toList, isWsC c = true := by
    intro c hc
    rcases List.mem_map.mp hc with ⟨c0, hc0, rfl⟩
    rw [ws_lowerC]
    exact hws c0 hc0
  have := splitRunsAux_all_sep isWsC (jsLowerL s.toList) true hall t ht
  simp [this]

theorem trimLower_head_not_ws {s : String} {c : Char}
    (h : (trimLower s).toList.head? = some c) : isWsC c = false := by
  have hc' : ((jsTrimL s.toList).map lowerC).head? = some c := h
  rw [List.head?_map] at hc'
  rcases Option.map_eq_some'.mp hc' with ⟨c0, hc0, rfl⟩
  rw [ws_lowerC]
  exact jsTrimL_head hc0

theorem trimLower_last_not_ws {s : String} {c : Char}
    (h : (trimLower s).toList.getLast? = some c) : isWsC c = false := by
  have hc' : ((jsTrimL s.toList).map lowerC).getLast? = some c := h
  rw [List.getLast?_map] at hc'
  rcases Option.map_eq_some'.mp hc' with ⟨c0, hc0, rfl⟩
  rw [ws_lowerC]
  exact jsTrimL_last hc0

theorem jsTrimL_eq_self_of_ends {l : List Char}
    (hh : ∀ c, l.head? = some c → isWsC c = false)
    (hl : ∀ c, l.getLast? = some c → isWsC c = false) :
    jsTrimL l = l := by
  unfold jsTrimL
  rw [dropWhile_eq_self_of_head hh]
  rw [dropWhile_eq_self_of_head (by
    intro c hc
    rw [List.head?_reverse] at hc
    exact hl c hc)]
  exact List.reverse_reverse l

theorem lowerTrim_fix (s : String) :
    jsTrimL (jsLowerL (trimLower s).toList) = (trimLower s).toList := by
  have hlow : jsLowerL (trimLower s).toList = (trimLower s).toList := by
    show jsLowerL (jsLowerL (jsTrimL s.toList)) = jsLowerL (jsTrimL s.toList)
    unfold jsLowerL
    rw [List.map_map]
    exact List.map_congr_left (fun c _ => lowerC_idem c)
  rw [hlow]
  exact jsTrimL_eq_self_of_ends (fun c hc => trimLower_head_not_ws hc)
    (fun c hc => trimLower_last_not_ws hc)

theorem trimLower_toList_ne {q : String} (h : trimLower q ≠ "") :
    (trimLower q).toList ≠ [] := by
  intro he
  exact h (congrArg String.mk he)

theorem similarity_den_pos (a0 b0 : String) : 0 < (similarity a0 b0).den := by
  simp only [similarity]
  split_ifs with h
  · exact Nat.one_pos
  · have h1 : 0 < (splitRuns isWsC (jsTrimL (jsLowerL a0.toList))).length :=
      List.length_pos.mpr (splitRunsAux_ne_nil isWsC _ [] true)
    have h2 : 0 < max (jsTrimL (jsLowerL a0.toList)).dedup.length
        (jsTrimL (jsLowerL b0.toList)).dedup.length := by
      rcases Decidable.em (jsTrimL (jsLowerL a0.toList) = []) with ha | ha
      · have hb : jsTrimL (jsLowerL b0.toList) ≠ [] := by
          intro hb
          exact h (ha.trans hb.symm)
        have hd : (jsTrimL (jsLowerL b0.toList)).dedup ≠ [] :=
          fun hx => hb ((List.dedup_eq_nil _).mp hx)
        exact lt_of_lt_of_le (List.length_pos.mpr hd) (Nat.le_max_right _ _)
      · have hd : (jsTrimL (jsLowerL a0.toList)).dedup ≠ [] :=
          fun hx => ha ((List.dedup_eq_nil _).mp hx)
        exact lt_of_lt_of_le (List.length_pos.mpr hd) (Nat.le_max_left _ _)
    have h1' : 0 < max (splitRuns isWsC (jsTrimL (jsLowerL a0.toList))).length
        (splitRuns isWsC (jsTrimL (jsLowerL b0.toList))).length :=
      lt_of_lt_of_le h1 (Nat.le_max_left _ _)
    simp only [Frac.add, Frac.mul, Frac.divNat]
    exact Nat.mul_pos (Nat.mul_pos (by norm_num) h1') (Nat.mul_pos (by norm_num) h2)

theorem ble_thresh_of_zero {d1 d2 : Nat} (h1 : 0 < d1) (h2 : 0 < d2) :
    Frac.ble ⟨6, 10⟩
      (Frac.add (Frac.mul ⟨6, 10⟩ (Frac.divNat 0 d1))
        (Frac.mul ⟨4, 10⟩ (Frac.divNat 0 d2))) = false := by
  simp only [Frac.ble, Frac.add, Frac.mul, Frac.divNat]
  rw [decide_eq_false_iff_not]
  intro hle
  push_cast at hle
  have hd1 : (0 : Int) < d1 := by exact_mod_cast h1
  have hd2 : (0 : Int) < d2 := by exact_mod_cast h2
  nlinarith [hle, hd1, hd2]

theorem similarity_empty_target {q : String} (hq : trimLower q ≠ "") :
    Frac.ble ⟨6, 10⟩ (similarity (trimLower q) "") = false := by
  have hfix : jsTrimL (jsLowerL (trimLower q).toList) = (trimLower q).toList :=
    lowerTrim_fix q
  have hne : (trimLower q).toList ≠ [] := trimLower_toList_ne hq
  simp only [similarity]
  rw [show jsTrimL (jsLowerL ("" : String).toList) = [] from rfl]
  rw [hfix]
  rw [if_neg hne]
  have hsh : (splitRuns isWsC (trimLower q).toList).filter
      (fun x => (splitRuns isWsC []).contains x) = [] := by
    rw [List.filter_eq_nil_iff]
    intro t ht
    have htne : t ≠ [] := splitRuns_no_empty hne
      (fun c hc => trimLower_head_not_ws hc)
      (fun c hc => trimLower_last_not_ws hc) t ht
    intro hcon
    have hmem : t ∈ splitRuns isWsC ([] : List Char) := List.elem_iff.mp hcon
    rw [show splitRuns isWsC ([] : List Char) = [[]] from rfl] at hmem
    exact htne (List.mem_singleton.mp hmem)
  have hin : ((trimLower q).toList.dedup).filter
      (fun ch => (([] : List Char).dedup).contains ch) = [] := by
    simp [List.filter_eq_nil_iff, List.contains]
  rw [hsh, hin]
  simp only [List.length_nil]
  apply ble_thresh_of_zero
  · exact lt_of_lt_of_le Nat.one_pos
      (le_trans (by rw [show splitRuns isWsC ([] : List Char) = [[]] from rfl]; simp)
        (Nat.le_max_right _ _))
  · have hd : (trimLower q).toList.dedup ≠ [] :=
      fun hx => hne ((List.dedup_eq_nil _).mp hx)
    exact lt_of_lt_of_le (List.length_pos.mpr hd) (Nat.le_max_left _ _)

/-- C8: for every non-empty query over a correctly-normalized dataset, the
similarity computation is total (every engine fraction has a positive
denominator, so no division yields NaN), an empty-normalizedName target
scores strictly below the 0.6 threshold, and no grouped record whose
normalized name is empty is ever returned by `search`. -/
theorem search_empty_name_c8 (rows : List Row) (jm : List (String × Meta))
    (q : String) (maxResults : Nat)
    (hq : trimLower q ≠ "")
    (hr : ∀ r ∈ rows, r._normName = trimLower r.Name) :
    (∀ a b : String, 0 < (similarity a b).den)
    ∧ Frac.ble ⟨6, 10⟩ (similarity (trimLower q) "") = false
    ∧ ∀ it ∈ search (aggregateItems rows jm) q maxResults,
        it.base._normName ≠ "" := by
  refine ⟨similarity_den_pos, similarity_empty_target hq, ?_⟩
  intro it hit hname
  obtain ⟨_, _, hent⟩ := aggregateItems_inv rows jm
  have htok : ∀ e ∈ aggregateItems rows jm, e.base._normName = "" →
      e._tokenSet = [] := by
    intro e he hen
    rw [List.eq_nil_iff_forall_not_mem]
    intro t ht
    obtain ⟨r, hrr, hrn, hrt⟩ := (hent e he).2.2 t ht
    rw [hen] at hrn
    rw [hr r hrr] at hrn
    rw [tokenizeName_eq_nil hrn] at hrt
    exact List.not_mem_nil t hrt
  have hmq : ∀ e ∈ aggregateItems rows jm, e.base._normName = "" →
      matchesQuery e (trimLower q) = false := by
    intro e he hen
    unfold matchesQuery
    rw [if_neg hq]
    rw [htok e he hen]
    have hsw : jsStartsWith e.base._normName (trimLower q) = false := by
      rw [hen]
      unfold jsStartsWith
      rw [show ("" : String).toList = [] from rfl]
      cases hcl : (trimLower q).toList with
      | nil => exact absurd hcl (trimLower_toList_ne hq)
      | cons a t => rfl
    rw [hsw]
    rfl
  simp only [search] at hit
  rw [if_neg hq] at hit
  by_cases hp : 0 < (dedupeAndSort ((aggregateItems rows jm).filter
      (fun it => matchesQuery it (trimLower q)))).length
  · rw [if_pos hp] at hit
    have h1 : it ∈ dedupeAndSort ((aggregateItems rows jm).filter
        (fun it => matchesQuery it (trimLower q))) := List.mem_of_mem_take hit
    unfold dedupeAndSort at h1
    have h2 : it ∈ (aggregateItems rows jm).filter
        (fun it => matchesQuery it (trimLower q)) :=
      dedupeByKeyAux_subset (stableSort_mem.mp h1)
    obtain ⟨hmem, hmq2⟩ := List.mem_filter.mp h2
    rw [hmq it hmem hname] at hmq2
    exact Bool.noConfusion hmq2
  · rw [if_neg hp] at hit
    have h1 := fuzzyCollect_subset hit
    obtain ⟨pair, hpair, hfst⟩ := List.mem_map.mp h1
    have h2 : pair ∈ ((aggregateItems rows jm).map
        (fun it => (it, similarity (trimLower q) it.base._normName))).filter
        (fun x => Frac.ble ⟨6, 10⟩ x.2) := stableSort_mem.mp hpair
    obtain ⟨h3, h4⟩ := List.mem_filter.mp h2
    obtain ⟨e, hee, heq⟩ := List.mem_map.mp h3
    subst heq
    have he' : e = it := hfst
    subst he'
    have h4' : Frac.ble ⟨6, 10⟩
        (similarity (trimLower q) e.base._normName) = true := h4
    rw [hname] at h4'
    rw [similarity_empty_target hq] at h4'
    exact Bool.noConfusion h4'

/-- C8 witness: instantiated on a two-row dataset containing an
all-whitespace name (empty normalized name) and the query `"x"`. -/
theorem search_empty_name_c8_witness :
    (trimLower "x" ≠ "" ∧ ∀ r ∈ [c10Row, c8Row], r._normName = trimLower r.Name)
    ∧ ((∀ a b : String, 0 < (similarity a b).den)
      ∧ Frac.ble ⟨6, 10⟩ (similarity (trimLower "x") "") = false
      ∧ ∀ it ∈ search (aggregateItems [c10Row, c8Row] []) "x" 50,
          it.base._normName ≠ "") :=
  ⟨⟨by decide, by decide⟩,
    search_empty_name_c8 [c10Row, c8Row] [] "x" 50 (by decide) (by decide)⟩

/-! ### The fuzzy-phase refinement (exact fractions vs the spec's rationals) -/

theorem Frac.toRat_mul (a b : Frac) : (Frac.mul a b).toRat = a.toRat * b.toRat := by
  simp only [Frac.toRat, Frac.mul]
  push_cast
  rw [div_mul_div_comm]

theorem Frac.toRat_add {a b : Frac} (ha : 0 < a.den) (hb : 0 < b.den) :
    (Frac.add a b).toRat = a.toRat + b.toRat := by
  simp only [Frac.toRat, Frac.add]
  have ha' : ((a.den : ℚ)) ≠ 0 := Nat.cast_ne_zero.mpr (Nat.pos_iff_ne_zero.mp ha)
  have hb' : ((b.den : ℚ)) ≠ 0 := Nat.cast_ne_zero.mpr (Nat.pos_iff_ne_zero.mp hb)
  push_cast
  field_simp

theorem Frac.ble_iff {a b : Frac} (ha : 0 < a.den) (hb : 0 < b.den) :
    Frac.ble a b = true ↔ a.toRat ≤ b.toRat := by
  simp only [Frac.ble, Frac.toRat, decide_eq_true_eq]
  rw [div_le_div_iff₀ (by exact_mod_cast ha) (by exact_mod_cast hb)]
  constructor
  · intro h
    exact_mod_cast h
  · intro h
    exact_mod_cast h

theorem Frac.ble_eq_decide {a b : Frac} (ha : 0 < a.den) (hb : 0 < b.den) :
    Frac.ble a b = decide (a.toRat ≤ b.toRat) := by
  rcases hble : Frac.ble a b with _ | _
  · symm
    rw [decide_eq_false_iff_not]
    intro hle
    rw [← Frac.ble_iff ha hb] at hle
    rw [hble] at hle
    exact Bool.noConfusion hle
  · symm
    rw [decide_eq_true_eq]
    exact (Frac.ble_iff ha hb).mp hble

theorem ble_thresh_eq {f : Frac} (hf : 0 < f.den) :
    Frac.ble ⟨6, 10⟩ f = decide ((6/10 : ℚ) ≤ f.toRat) := by
  rw [Frac.ble_eq_decide (by norm_num) hf, decide_eq_decide]
  have h610 : (⟨6, 10⟩ : Frac).toRat = 6/10 := by norm_num [Frac.toRat]
  rw [h610]

theorem trim_lower_fix_both {l : List Char}
    (hf : jsTrimL (jsLowerL l) = l) : jsLowerL l = l ∧ jsTrimL l = l := by
  have h1 : ((jsLowerL l).dropWhile isWsC).Sublist (jsLowerL l) :=
    List.dropWhile_sublist isWsC
  have h2' : ((((jsLowerL l).dropWhile isWsC).reverse.dropWhile isWsC)).Sublist
      (((jsLowerL l).dropWhile isWsC).reverse) := List.dropWhile_sublist isWsC
  have h2 := h2'.reverse
  rw [List.reverse_reverse] at h2
  have h3 : List.Sublist (jsTrimL (jsLowerL l)) (jsLowerL l) := h2.trans h1
  have hlen : (jsTrimL (jsLowerL l)).length = (jsLowerL l).length := by
    rw [hf]
    simp [jsLowerL]
  have hy : jsTrimL (jsLowerL l) = jsLowerL l := h3.eq_of_length hlen
  have hlow : jsLowerL l = l := hy.symm.trans hf
  exact ⟨hlow, hlow ▸ hy⟩

theorem specTokens_eq_splitRuns {s : String}
    (hft : jsTrimL s.toList = s.toList) (hne : s.toList ≠ []) :
    specTokens s = splitRuns isWsC s.toList := by
  unfold specTokens
  apply List.filter_eq_self.mpr
  intro t ht
  simp only [decide_eq_true_eq]
  exact splitRuns_no_empty hne
    (fun c hc => jsTrimL_head (by rw [hft]; exact hc))
    (fun c hc => jsTrimL_last (by rw [hft]; exact hc)) t ht

theorem inter_card_eq (l1 l2 : List Char) :
    (l1.toFinset ∩ l2.toFinset).card
      = (l1.dedup.filter (fun ch => l2.dedup.contains ch)).length := by
  have hnd : (l1.dedup.filter (fun ch => l2.dedup.contains ch)).Nodup :=
    (List.nodup_dedup l1).filter _
  rw [← List.toFinset_card_of_nodup hnd]
  congr 1
  ext c
  simp [List.mem_filter, List.mem_dedup, List.elem_iff]

theorem specTokenRatio_eq {q t : String}
    (hfq : jsTrimL q.toList = q.toList)
    (hft : jsTrimL t.toList = t.toList)
    (hne : ¬(q.toList = [] ∧ t.toList = [])) :
    specTokenRatio q t
      = (((splitRuns isWsC q.toList).filter
          (fun x => (splitRuns isWsC t.toList).contains x)).length : ℚ)
        / ((max (splitRuns isWsC q.toList).length
            (splitRuns isWsC t.toList).length : Nat) : ℚ) := by
  unfold specTokenRatio
  rcases Decidable.em (q.toList = []) with hq0 | hq0
  · have ht0 : t.toList ≠ [] := fun h => hne ⟨hq0, h⟩
    have hqe : specTokens q = [] := by
      unfold specTokens
      rw [hq0]
      rfl
    have hnoempty : ∀ x ∈ splitRuns isWsC t.toList, x ≠ [] :=
      splitRuns_no_empty ht0 (fun c hc => jsTrimL_head (by rw [hft]; exact hc))
        (fun c hc => jsTrimL_last (by rw [hft]; exact hc))
    have hcon : ¬ ((splitRuns isWsC t.toList).contains ([] : List Char) = true) := by
      rw [List.elem_iff]
      intro hmem
      exact hnoempty [] hmem rfl
    have hts : specTokens t = splitRuns isWsC t.toList := specTokens_eq_splitRuns hft ht0
    rw [hqe, hts, hq0]
    rw [show splitRuns isWsC ([] : List Char) = [[]] from rfl]
    rw [List.filter_cons, if_neg hcon]
    have hlen : 1 ≤ (splitRuns isWsC t.toList).length :=
      List.length_pos.mpr (splitRunsAux_ne_nil isWsC _ [] true)
    simp
  · rcases Decidable.em (t.toList = []) with ht0 | ht0
    · have hqs : specTokens q = splitRuns isWsC q.toList := specTokens_eq_splitRuns hfq hq0
      have hte : specTokens t = [] := by
        unfold specTokens
        rw [ht0]
        rfl
      have hnoempty : ∀ x ∈ splitRuns isWsC q.toList, x ≠ [] :=
        splitRuns_no_empty hq0 (fun c hc => jsTrimL_head (by rw [hfq]; exact hc))
          (fun c hc => jsTrimL_last (by rw [hfq]; exact hc))
      rw [hqs, hte, ht0]
      rw [show splitRuns isWsC ([] : List Char) = [[]] from rfl]
      have hf1 : (splitRuns isWsC q.toList).filter
          (fun x => decide (x ∈ ([] : List (List Char)))) = [] := by
        rw [List.filter_eq_nil_iff]
        intro x hx
        simp
      have hf2 : (splitRuns isWsC q.toList).filter
          (fun x => ([[]] : List (List Char)).contains x) = [] := by
        rw [List.filter_eq_nil_iff]
        intro x hx
        intro hcx
        have : x ∈ ([[]] : List (List Char)) := List.elem_iff.mp hcx
        exact hnoempty x hx (List.mem_singleton.mp this)
      rw [hf1, hf2]
      have hlen : 1 ≤ (splitRuns isWsC q.toList).length :=
        List.length_pos.mpr (splitRunsAux_ne_nil isWsC _ [] true)
      simp
    · have hqs : specTokens q = splitRuns isWsC q.toList := specTokens_eq_splitRuns hfq hq0
      have hts : specTokens t = splitRuns isWsC t.toList := specTokens_eq_splitRuns hft ht0
      rw [hqs, hts]
      have hfe : (splitRuns isWsC q.toList).filter
          (fun x => decide (x ∈ splitRuns isWsC t.toList))
          = (splitRuns isWsC q.toList).filter
            (fun x => (splitRuns isWsC t.toList).contains x) :=
        List.filter_congr (fun x hx => by
          rw [Bool.eq_iff_iff, decide_eq_true_eq, List.elem_iff])
      rw [hfe, Nat.cast_max]

theorem specCharRatio_eq (q t : String) :
    specCharRatio q t
      = ((q.toList.dedup.filter (fun ch => t.toList.dedup.contains ch)).length : ℚ)
        / ((max q.toList.dedup.length t.toList.dedup.length : Nat) : ℚ) := by
  unfold specCharRatio
  rw [inter_card_eq, List.card_toFinset, List.card_toFinset, Nat.cast_max]

theorem similarity_toRat_spec {q t : String}
    (hfq : jsTrimL (jsLowerL q.toList) = q.toList)
    (hft : jsTrimL (jsLowerL t.toList) = t.toList) :
    (similarity q t).toRat = specScore q t := by
  obtain ⟨hlq, htq⟩ := trim_lower_fix_both hfq
  obtain ⟨hlt, htt⟩ := trim_lower_fix_both hft
  simp only [similarity, specScore]
  rw [hfq, hft]
  by_cases he : q.toList = t.toList
  · have he' : q = t := congrArg String.mk he
    rw [if_pos he, if_pos he']
    norm_num [Frac.toRat]
  · have he' : q ≠ t := fun h => he (congrArg String.toList h)
    rw [if_neg he, if_neg he']
    have hne2 : ¬(q.toList = [] ∧ t.toList = []) := by
      rintro ⟨h1, h2⟩
      exact he (h1.trans h2.symm)
    have hd1 : 0 < max (splitRuns isWsC q.toList).length
        (splitRuns isWsC t.toList).length :=
      lt_of_lt_of_le (List.length_pos.mpr (splitRunsAux_ne_nil isWsC _ [] true))
        (Nat.le_max_left _ _)
    have hd2 : 0 < max q.toList.dedup.length t.toList.dedup.length := by
      rcases Decidable.em (q.toList = []) with h0 | h0
      · have ht0 : t.toList ≠ [] := fun h => hne2 ⟨h0, h⟩
        exact lt_of_lt_of_le
          (List.length_pos.mpr (fun hx => ht0 ((List.dedup_eq_nil _).mp hx)))
          (Nat.le_max_right _ _)
      · exact lt_of_lt_of_le
          (List.length_pos.mpr (fun hx => h0 ((List.dedup_eq_nil _).mp hx)))
          (Nat.le_max_left _ _)
    rw [Frac.toRat_add
      (by simp only [Frac.mul, Frac.divNat]
          exact Nat.mul_pos (by norm_num) hd1)
      (by simp only [Frac.mul, Frac.divNat]
          exact Nat.mul_pos (by norm_num) hd2)]
    rw [Frac.toRat_mul, Frac.toRat_mul]
    rw [specTokenRatio_eq htq htt hne2, specCharRatio_eq]
    simp only [Frac.toRat, Frac.divNat]
    push_cast
    ring

theorem insertSorted_map {α β : Type} (g : α → β) (le1 : α → α → Bool)
    (le2 : β → β → Bool) (P : α → Prop)
    (hle : ∀ a b, P a → P b → le2 (g a) (g b) = le1 a b) :
    ∀ (l : List α) (x : α), P x → (∀ a ∈ l, P a) →
      insertSorted le2 (g x) (l.map g) = (insertSorted le1 x l).map g
  | [], x, hx, hl => rfl
  | y :: ys, x, hx, hl => by
    simp only [List.map_cons]
    unfold insertSorted
    rw [hle x y hx (hl y (List.mem_cons_self y ys))]
    split_ifs with h
    · simp
    · simp only [List.map_cons]
      rw [insertSorted_map g le1 le2 P hle ys x hx
        (fun a ha => hl a (List.mem_cons_of_mem y ha))]

theorem stableSort_map {α β : Type} (g : α → β) (le1 : α → α → Bool)
    (le2 : β → β → Bool) (P : α → Prop)
    (hle : ∀ a b, P a → P b → le2 (g a) (g b) = le1 a b) :
    ∀ (l : List α), (∀ a ∈ l, P a) →
      stableSort le2 (l.map g) = (stableSort le1 l).map g
  | [], _ => rfl
  | x :: xs, hl => by
    simp only [List.map_cons]
    unfold stableSort
    rw [stableSort_map g le1 le2 P hle xs
      (fun a ha => hl a (List.mem_cons_of_mem x ha))]
    exact insertSorted_map g le1 le2 P hle (stableSort le1 xs) x
      (hl x (List.mem_cons_self x xs))
      (fun a ha => hl a (List.mem_cons_of_mem x (stableSort_mem.mp ha)))

/-- C2 (amended): for every non-empty query with no prefix match, over
records whose normalized names are trim+lowercase fixed points and with
`maxResults ≥ 1`, `search` computes exactly the spec's fuzzy pipeline:
score 1 on equality else 0.6·tokenOverlapRatio + 0.4·characterSetOverlapRatio,
keep scores ≥ 0.6, stable-sort descending, dedupe by normalized name, cap at
`maxResults`.  (With `maxResults = 0` the code still returns one record — see
the counterexample.) -/
theorem search_fuzzy_c2_amended (items : List Entry) (q : String) (maxResults : Nat)
    (hq : trimLower q ≠ "")
    (hnp : ∀ it ∈ items, matchesQuery it (trimLower q) = false)
    (hnorm : ∀ it ∈ items, it.base._normName = trimLower it.base._normName)
    (hmax : 1 ≤ maxResults) :
    search items q maxResults = specFuzzy items (trimLower q) maxResults := by
  have hfixq : jsTrimL (jsLowerL (trimLower q).toList) = (trimLower q).toList :=
    lowerTrim_fix q
  have hfixt : ∀ it ∈ items, jsTrimL (jsLowerL it.base._normName.toList)
      = it.base._normName.toList := by
    intro it hit
    rw [hnorm it hit]
    exact lowerTrim_fix it.base._normName
  simp only [search, specFuzzy]
  rw [if_neg hq]
  have hfil : items.filter (fun it => matchesQuery it (trimLower q)) = [] := by
    rw [List.filter_eq_nil_iff]
    intro it hit
    simp [hnp it hit]
  rw [hfil]
  rw [show dedupeAndSort [] = [] from rfl]
  rw [if_neg (by simp)]
  have hmap : items.map (fun it => (it, specScore (trimLower q) it.base._normName))
      = (items.map (fun it => (it, similarity (trimLower q) it.base._normName))).map
        (fun p => (p.1, p.2.toRat)) := by
    rw [List.map_map]
    apply List.map_congr_left
    intro it hit
    show (it, specScore (trimLower q) it.base._normName)
      = (it, (similarity (trimLower q) it.base._normName).toRat)
    rw [similarity_toRat_spec hfixq (hfixt it hit)]
  rw [hmap]
  have hfcong : (items.map
        (fun it => (it, similarity (trimLower q) it.base._normName))).filter
      ((fun x : Entry × ℚ => decide ((6/10 : ℚ) ≤ x.2))
        ∘ (fun p : Entry × Frac => (p.1, p.2.toRat)))
      = (items.map
          (fun it => (it, similarity (trimLower q) it.base._normName))).filter
        (fun x => Frac.ble ⟨6, 10⟩ x.2) := by
    apply List.filter_congr
    intro x hx
    rcases List.mem_map.mp hx with ⟨it, hit, rfl⟩
    show decide ((6/10 : ℚ) ≤ (similarity (trimLower q) it.base._normName).toRat)
      = Frac.ble ⟨6, 10⟩ (similarity (trimLower q) it.base._normName)
    rw [ble_thresh_eq (similarity_den_pos _ _)]
  have hRHS : ((items.map
        (fun it => (it, similarity (trimLower q) it.base._normName))).map
          (fun p : Entry × Frac => (p.1, p.2.toRat))).filter
      (fun x : Entry × ℚ => decide ((6/10 : ℚ) ≤ x.2))
      = ((items.map
          (fun it => (it, similarity (trimLower q) it.base._normName))).filter
            (fun x => Frac.ble ⟨6, 10⟩ x.2)).map
          (fun p : Entry × Frac => (p.1, p.2.toRat)) := by
    rw [List.filter_map]
    rw [hfcong]
  rw [hRHS]
  have hsort : stableSort (fun a b : Entry × ℚ => decide (b.2 ≤ a.2))
      (((items.map (fun it => (it, similarity (trimLower q) it.base._normName))).filter
        (fun x => Frac.ble ⟨6, 10⟩ x.2)).map (fun p => (p.1, p.2.toRat)))
      = ((stableSort (fun a b => Frac.ble b.2 a.2)
          ((items.map (fun it => (it, similarity (trimLower q) it.base._normName))).filter
            (fun x => Frac.ble ⟨6, 10⟩ x.2))).map (fun p => (p.1, p.2.toRat))) :=
    stableSort_map (fun p : Entry × Frac => (p.1, p.2.toRat))
      (fun a b : Entry × Frac => Frac.ble b.2 a.2)
      (fun a b : Entry × ℚ => decide (b.2 ≤ a.2))
      (fun p : Entry × Frac => 0 < p.2.den)
      (fun a b ha hb => by
        show decide (b.2.toRat ≤ a.2.toRat) = Frac.ble b.2 a.2
        rw [Frac.ble_eq_decide hb ha])

      _
      (fun a ha => by
        rcases List.mem_map.mp (List.mem_filter.mp ha).1 with ⟨it, hit, rfl⟩
        exact similarity_den_pos _ _)
  rw [hsort]
  rw [List.map_map]
  rw [show ((Prod.fst ∘ (fun p : Entry × Frac => (p.1, p.2.toRat)))
      : Entry × Frac → Entry) = Prod.fst from rfl]
  rw [fuzzyCollect_eq_take (by omega : (0 : Nat) < maxResults)]
  rw [Nat.sub_zero]


/-- C2 counterexample: with `maxResults = 0`, a non-empty query with no
prefix match still returns one fuzzy record (the loop's break is checked
only after the first push), contradicting "caps the result at
`maxResults`". -/
theorem search_cap_c2_counterexample :
    trimLower "ab ba" ≠ ""
    ∧ matchesQuery c2Entry (trimLower "ab ba") = false
    ∧ (search [c2Entry] "ab ba" 0).length = 1 := by decide

/-- C2 witness: the amended fuzzy-phase equation instantiated on a concrete
one-record dataset and query with no prefix match. -/
theorem search_fuzzy_c2_amended_witness :
    (trimLower "ab ba" ≠ ""
      ∧ (∀ it ∈ [c2Entry], matchesQuery it (trimLower "ab ba") = false)
      ∧ (∀ it ∈ [c2Entry], it.base._normName = trimLower it.base._normName)
      ∧ 1 ≤ 1)
    ∧ search [c2Entry] "ab ba" 1 = specFuzzy [c2Entry] (trimLower "ab ba") 1 :=
  ⟨⟨by decide, by decide, by decide, by decide⟩,
    search_fuzzy_c2_amended [c2Entry] "ab ba" 1 (by decide) (by decide) (by decide)
      (by decide)⟩
